import Mathlib

/-!
Shallow embedding of the real-time hub of `internal/websocket/websocket.go`
(repository GabrielArdy/go-realtime-chat, Go module `realtime-api`).

Modelling conventions:
* `*Client` pointers become opaque `ClientId` naturals; the mutable fields of a
  `Client` struct (`userID`, `username`, `rooms`) become a `ClientData` record
  stored in the hub's client table.
* Go maps (`h.clients`, `h.rooms`, `h.userRooms`, `client.rooms`) become
  association lists with unique-key map semantics: deletion removes every
  binding of the key (Go map keys are unique), insertion of a present key is a
  no-op on the key set.
* A channel send `client.send <- m` inside `select { ...; default: }` is
  modelled with an explicit per-call oracle `full : List ClientId` naming the
  clients whose bounded send queue is currently saturated: a send to a
  saturated client takes the `default` branch.  Sending on a closed channel
  panics in Go even under `select`, and `close` of a closed channel panics;
  both become the `GoPanic` error outcome.
* Successful enqueues are logged in `sent`; each `broadcastToRoom` call is
  logged in `bcasts`; published typing domain events are logged in `events`.
* `uuid.Parse` (external library) is an abstract parameter
  `parse : String → Option RoomId` of the inbound typing handlers.
-/

abbrev ClientId := Nat
abbrev UserId := Nat
abbrev RoomId := Nat

/-- The mutable per-client state of the Go `Client` struct: owning user id,
username, and the client's own room set `client.rooms`. -/
structure ClientData where
  userID : UserId
  username : String
  rooms : List RoomId
deriving DecidableEq

/-- The frame tags of `model.WSMessageType` in the model package. -/
inductive WSType where
  | ping | pong | auth | message | messageEdit | messageDelete | messageReaction
  | typingStart | typingStop | userJoin | userLeave | userStatusChange
  | roomJoin | roomLeave | notification | errorTag
deriving DecidableEq

/-- The payload part of an outbound frame; `raw` stands for an opaque payload
handed to the public broadcast entry points. -/
inductive Payload where
  | raw (n : Nat)
  | authAck (u : UserId)
  | userLeaveData (u : UserId) (name : String)
  | typingData (r : RoomId) (u : UserId) (name : String)
deriving DecidableEq

/-- One outbound frame as built by `Hub.createMessage` (the generated id and
timestamp carry no information the claims mention and are omitted). -/
structure Msg where
  mtype : WSType
  payload : Payload
deriving DecidableEq

/-- The hub's three bookkeeping maps (`h.clients`, `h.rooms`, `h.userRooms`). -/
structure Hub where
  clients : List (ClientId × ClientData)
  rooms : List (RoomId × List ClientId)
  userRooms : List (UserId × List RoomId)
deriving DecidableEq

/-- Go runtime panics the hub code can raise. -/
inductive GoPanic where
  | sendOnClosedChannel
  | closeOfClosedChannel
deriving DecidableEq

/-- Hub state plus the observable history of an execution: which send channels
have been closed, the log of successful enqueues, the log of
`broadcastToRoom` invocations, and the published typing domain events. -/
structure World where
  hub : Hub
  closed : List ClientId
  sent : List (ClientId × Msg)
  bcasts : List (RoomId × Msg)
  events : List (RoomId × UserId × Bool)
deriving DecidableEq

def World.init : World := ⟨⟨[], [], []⟩, [], [], [], []⟩

/-- Association-list lookup with Go-map semantics (keys unique; first binding
is the binding). -/
def lookupKey {β : Type} : List (Nat × β) → Nat → Option β
  | [], _ => none
  | p :: ps, k => if p.1 = k then some p.2 else lookupKey ps k

/-- Go `delete(m, k)`. -/
def eraseKey {β : Type} (l : List (Nat × β)) (k : Nat) : List (Nat × β) :=
  l.filter (fun p => !(p.1 == k))

/-- Go `m[k] = v`: replace the binding when present, append it when absent. -/
def setKey {β : Type} (l : List (Nat × β)) (k : Nat) (v : β) : List (Nat × β) :=
  match lookupKey l k with
  | some _ => l.map (fun p => if p.1 = k then (p.1, v) else p)
  | none => l ++ [(k, v)]

/-- The member set of a room (`h.rooms[r]`), empty when the entry is absent. -/
def membersOf (rs : List (RoomId × List ClientId)) (r : RoomId) : List ClientId :=
  (lookupKey rs r).getD []

def hasKey {β : Type} (l : List (Nat × β)) (k : Nat) : Bool :=
  (lookupKey l k).isSome

/-- Set-like insert used for Go map-as-set assignment `s[x] = true`. -/
def insertId (l : List Nat) (x : Nat) : List Nat :=
  if x ∈ l then l else l ++ [x]

/-- Go `delete(room, client)` alone, with no empty-entry cleanup — the exact
mutation the slow-consumer branch of `broadcastToRoom` performs. -/
def roomDropMember (rs : List (RoomId × List ClientId)) (r : RoomId) (c : ClientId) :
    List (RoomId × List ClientId) :=
  rs.map (fun p => if p.1 = r then (p.1, p.2.filter (fun x => !(x == c))) else p)

/-- Go code `if room, ok := h.rooms[r]; ok { delete(room, c); if len(room) == 0 { delete(h.rooms, r) } }`
— the per-room body of `removeClientFromAllRooms`. -/
def removeMemberDel (rs : List (RoomId × List ClientId)) (r : RoomId) (c : ClientId) :
    List (RoomId × List ClientId) :=
  (roomDropMember rs r c).filter (fun p => !(p.1 == r && p.2.isEmpty))

/-- Error-propagating left fold used to model the Go `for` loops whose bodies
can panic. -/
def foldE {α : Type} (f : World → α → Except GoPanic World) :
    World → List α → Except GoPanic World
  | w, [] => .ok w
  | w, a :: as =>
    match f w a with
    | .error e => .error e
    | .ok w1 => foldE f w1 as

/-- One iteration of the member loop of `broadcastToRoom`:
`select { case client.send <- message: ; default: delete(room, client); close(client.send) }`. -/
def sendStep (r : RoomId) (m : Msg) (full : List ClientId) (w : World) (c : ClientId) :
    Except GoPanic World :=
  if c ∈ w.closed then .error .sendOnClosedChannel
  else if c ∈ full then
    .ok { w with
            hub := { w.hub with rooms := roomDropMember w.hub.rooms r c },
            closed := c :: w.closed }
  else .ok { w with sent := w.sent ++ [(c, m)] }

/-- Model of `Hub.broadcastToRoom`: build one message, then fan it out to the room's
current member set; a missing room entry is nothing-to-do. -/
def broadcastToRoom (w : World) (r : RoomId) (m : Msg) (full : List ClientId) :
    Except GoPanic World :=
  let w0 : World := { w with bcasts := w.bcasts ++ [(r, m)] }
  match lookupKey w0.hub.rooms r with
  | none => .ok w0
  | some ms => foldE (sendStep r m full) w0 ms

/-- Model of `Hub.BroadcastToRoom`, the public wrapper. -/
def BroadcastToRoom (w : World) (r : RoomId) (t : WSType) (p : Payload)
    (full : List ClientId) : Except GoPanic World :=
  broadcastToRoom w r ⟨t, p⟩ full

def userLeaveMsg (u : UserId) (name : String) : Msg :=
  ⟨.userLeave, .userLeaveData u name⟩

/-- Model of `Hub.removeClientFromAllRooms`: first remove the client from every room in
its own room set (cleaning up emptied entries), then emit a `user-leave`
broadcast for each room recorded under its user in `h.userRooms` and delete
that entry.  The client's own `rooms` set is not cleared. -/
def removeClientFromAllRooms (w : World) (c : ClientId) (cd : ClientData)
    (full : List ClientId) : Except GoPanic World :=
  let rooms1 := cd.rooms.foldl (fun rs r => removeMemberDel rs r c) w.hub.rooms
  let w1 : World := { w with hub := { w.hub with rooms := rooms1 } }
  match lookupKey w1.hub.userRooms cd.userID with
  | none => .ok w1
  | some rs =>
    match foldE (fun w2 r => broadcastToRoom w2 r (userLeaveMsg cd.userID cd.username) full)
        w1 rs with
    | .error e => .error e
    | .ok w2 =>
      .ok { w2 with hub := { w2.hub with userRooms := eraseKey w2.hub.userRooms cd.userID } }

/-- The `register` case of `Hub.Run`: admit the client, then (blocking) send it
the auth confirmation frame. -/
def runRegister (w : World) (c : ClientId) (u : UserId) (name : String) :
    Except GoPanic World :=
  let w1 : World :=
    { w with hub := { w.hub with clients := setKey w.hub.clients c ⟨u, name, []⟩ } }
  if c ∈ w1.closed then .error .sendOnClosedChannel
  else .ok { w1 with sent := w1.sent ++ [(c, ⟨.auth, .authAck u⟩)] }

/-- The `unregister` case of `Hub.Run`: when the client is still registered,
remove it from all rooms, delete it from `h.clients`, and close its send
channel; an unknown client is nothing-to-do. -/
def runUnregister (w : World) (c : ClientId) (full : List ClientId) :
    Except GoPanic World :=
  match lookupKey w.hub.clients c with
  | none => .ok w
  | some cd =>
    match removeClientFromAllRooms w c cd full with
    | .error e => .error e
    | .ok w1 =>
      let w2 : World :=
        { w1 with hub := { w1.hub with clients := eraseKey w1.hub.clients c } }
      if c ∈ w2.closed then .error .closeOfClosedChannel
      else .ok { w2 with closed := c :: w2.closed }

/-- One iteration of the client loop shared by `Hub.BroadcastToUser` and the
`broadcast` case of `Hub.Run` (the latter applies it without the user filter):
on a saturated queue the client is fully deregistered and its channel closed. -/
def clientSendStep (m : Msg) (full : List ClientId) (w : World)
    (ent : ClientId × ClientData) : Except GoPanic World :=
  if ent.1 ∈ w.closed then .error .sendOnClosedChannel
  else if ent.1 ∈ full then
    match removeClientFromAllRooms w ent.1 ent.2 full with
    | .error e => .error e
    | .ok w1 =>
      .ok { w1 with
              hub := { w1.hub with clients := eraseKey w1.hub.clients ent.1 },
              closed := ent.1 :: w1.closed }
  else .ok { w with sent := w.sent ++ [(ent.1, m)] }

/-- Model of `Hub.BroadcastToUser`: fan out to every live connection owned by the user. -/
def BroadcastToUser (w : World) (u : UserId) (t : WSType) (p : Payload)
    (full : List ClientId) : Except GoPanic World :=
  foldE
    (fun w1 ent =>
      if ent.2.userID = u then clientSendStep ⟨t, p⟩ full w1 ent else .ok w1)
    w w.hub.clients

/-- The `broadcast` case of `Hub.Run`: fan one message out to every client. -/
def runBroadcast (w : World) (t : WSType) (p : Payload) (full : List ClientId) :
    Except GoPanic World :=
  foldE (clientSendStep ⟨t, p⟩ full) w w.hub.clients

/-- The `h.userRooms` update of `JoinRoom`: append the room id when absent
from the user's list, create the list when the user has no entry. -/
def joinUserRooms (ur : List (UserId × List RoomId)) (u : UserId) (r : RoomId) :
    List (UserId × List RoomId) :=
  match lookupKey ur u with
  | some rs => if r ∈ rs then ur else setKey ur u (rs ++ [r])
  | none => setKey ur u [r]

/-- Model of `Hub.JoinRoom`: ensure the room entry exists, add every live client of the
user to it and the room id to each such client's own room set, then record the
room under the user in `h.userRooms`. -/
def JoinRoom (w : World) (u : UserId) (r : RoomId) : World :=
  let rooms0 :=
    if hasKey w.hub.rooms r then w.hub.rooms else w.hub.rooms ++ [(r, [])]
  let clients1 := w.hub.clients.map (fun ent =>
    if ent.2.userID = u then (ent.1, { ent.2 with rooms := insertId ent.2.rooms r })
    else ent)
  let rooms1 := (w.hub.clients.filter (fun ent => ent.2.userID == u)).foldl
    (fun rs ent => rs.map (fun p => if p.1 = r then (p.1, insertId p.2 ent.1) else p))
    rooms0
  { w with hub := ⟨clients1, rooms1, joinUserRooms w.hub.userRooms u r⟩ }

/-- The `h.userRooms` update of `LeaveRoom`: filter the room id out of the
user's list, deleting the entry when the list becomes empty. -/
def leaveUserRooms (ur : List (UserId × List RoomId)) (u : UserId) (r : RoomId) :
    List (UserId × List RoomId) :=
  match lookupKey ur u with
  | some rs =>
    let newRooms := rs.filter (fun x => !(x == r))
    if newRooms.isEmpty then eraseKey ur u else setKey ur u newRooms
  | none => ur

/-- Model of `Hub.LeaveRoom`: when the room entry exists, remove every live client of
the user from it and the room id from each such client's own room set, then
drop the entry if it became empty; in every case update `h.userRooms`. -/
def LeaveRoom (w : World) (u : UserId) (r : RoomId) : World :=
  if hasKey w.hub.rooms r then
    let userClients := (w.hub.clients.filter (fun ent => ent.2.userID == u)).map (·.1)
    let rooms1 := w.hub.rooms.map (fun p =>
      if p.1 = r then (p.1, p.2.filter (fun x => !(userClients.contains x))) else p)
    let rooms2 := rooms1.filter (fun p => !(p.1 == r && p.2.isEmpty))
    let clients1 := w.hub.clients.map (fun ent =>
      if ent.2.userID = u then
        (ent.1, { ent.2 with rooms := ent.2.rooms.filter (fun x => !(x == r)) })
      else ent)
    { w with hub := ⟨clients1, rooms2, leaveUserRooms w.hub.userRooms u r⟩ }
  else
    { w with hub := { w.hub with userRooms := leaveUserRooms w.hub.userRooms u r } }

/-- Inbound JSON values as far as the typing handlers inspect them
(`data.(map[string]interface{})` and `dataMap["room_id"].(string)`). -/
inductive JValue where
  | null
  | str (s : String)
  | obj (fields : List (String × JValue))

def lookupField : List (String × JValue) → String → Option JValue
  | [], _ => none
  | p :: ps, k => if p.1 = k then some p.2 else lookupField ps k

/-- The room-id extraction chain shared by `handleTypingStart` and
`handleTypingStop`: payload must be an object, `room_id` must be present and a
string, and the string must parse as a UUID (`parse` stands for `uuid.Parse`). -/
def typingRoomId (parse : String → Option RoomId) (data : JValue) : Option RoomId :=
  match data with
  | .obj fields =>
    match lookupField fields "room_id" with
    | some (.str s) => parse s
    | _ => none
  | _ => none

/-- Model of `Client.handleTypingStart`: on a valid `room_id`, publish the typing domain
event and broadcast a typing-start frame to the room; otherwise return with no
effect. -/
def handleTypingStart (parse : String → Option RoomId) (w : World) (cd : ClientData)
    (data : JValue) (full : List ClientId) : Except GoPanic World :=
  match typingRoomId parse data with
  | none => .ok w
  | some roomID =>
    let w1 : World := { w with events := w.events ++ [(roomID, cd.userID, true)] }
    broadcastToRoom w1 roomID ⟨.typingStart, .typingData roomID cd.userID cd.username⟩ full

/-- Model of `Client.handleTypingStop`: same shape as `handleTypingStart` with the stop
event and frame tag. -/
def handleTypingStop (parse : String → Option RoomId) (w : World) (cd : ClientData)
    (data : JValue) (full : List ClientId) : Except GoPanic World :=
  match typingRoomId parse data with
  | none => .ok w
  | some roomID =>
    let w1 : World := { w with events := w.events ++ [(roomID, cd.userID, false)] }
    broadcastToRoom w1 roomID ⟨.typingStop, .typingData roomID cd.userID cd.username⟩ full

/-- The hub operations the claims quantify over, each broadcast carrying its
saturation oracle. -/
inductive HubOp where
  | register (c : ClientId) (u : UserId) (name : String)
  | unregister (c : ClientId) (full : List ClientId)
  | joinRoom (u : UserId) (r : RoomId)
  | leaveRoom (u : UserId) (r : RoomId)
  | broadcastRoom (r : RoomId) (t : WSType) (p : Payload) (full : List ClientId)
  | broadcastUser (u : UserId) (t : WSType) (p : Payload) (full : List ClientId)
  | broadcastAll (t : WSType) (p : Payload) (full : List ClientId)

def applyOp (w : World) : HubOp → Except GoPanic World
  | .register c u name => runRegister w c u name
  | .unregister c full => runUnregister w c full
  | .joinRoom u r => .ok (JoinRoom w u r)
  | .leaveRoom u r => .ok (LeaveRoom w u r)
  | .broadcastRoom r t p full => BroadcastToRoom w r t p full
  | .broadcastUser u t p full => BroadcastToUser w u t p full
  | .broadcastAll t p full => runBroadcast w t p full

def runOps (ops : List HubOp) : Except GoPanic World :=
  foldE applyOp World.init ops

/-! ### Generic lemmas about the association-list map operations -/

theorem lookupKey_mem {β : Type} {l : List (Nat × β)} {k : Nat} {v : β}
    (h : lookupKey l k = some v) : (k, v) ∈ l := by
  induction l with
  | nil => simp [lookupKey] at h
  | cons p ps ih =>
    obtain ⟨a, b⟩ := p
    simp only [lookupKey] at h
    split at h
    · next heq =>
      rw [Option.some_inj] at h
      have ha : a = k := heq
      subst ha; subst h
      exact List.mem_cons_self _ _
    · next hne =>
      exact List.mem_cons_of_mem _ (ih h)

theorem lookupKey_eq_none_iff {β : Type} {l : List (Nat × β)} {k : Nat} :
    lookupKey l k = none ↔ ∀ p ∈ l, p.1 ≠ k := by
  induction l with
  | nil => simp [lookupKey]
  | cons p ps ih =>
    by_cases hk : p.1 = k
    · simp [lookupKey, hk]
    · simp [lookupKey, hk, ih]

theorem lookupKey_eraseKey_self {β : Type} (l : List (Nat × β)) (k : Nat) :
    lookupKey (eraseKey l k) k = none := by
  rw [lookupKey_eq_none_iff]
  intro p hp
  simp [eraseKey, List.mem_filter] at hp
  exact hp.2

theorem lookupKey_eraseKey_ne {β : Type} (l : List (Nat × β)) (k k' : Nat)
    (h : k' ≠ k) : lookupKey (eraseKey l k) k' = lookupKey l k' := by
  induction l with
  | nil => simp [eraseKey, lookupKey]
  | cons p ps ih =>
    by_cases hk : p.1 = k
    · have hne : ¬ p.1 = k' := by rw [hk]; exact fun hh => h hh.symm
      have hb : (!(p.1 == k)) = false := by simp [hk]
      simp only [eraseKey, List.filter_cons, hb, if_neg (by simp : ¬ (false = true))]
      rw [show List.filter (fun p => !(p.1 == k)) ps = eraseKey ps k from rfl, ih]
      simp only [lookupKey, if_neg hne]
    · have hb : (!(p.1 == k)) = true := by simp [hk]
      simp only [eraseKey, List.filter_cons, hb, if_pos rfl]
      by_cases hk' : p.1 = k'
      · simp only [lookupKey, if_pos hk']
      · simp only [lookupKey, if_neg hk']
        rw [show List.filter (fun p => !(p.1 == k)) ps = eraseKey ps k from rfl, ih]

theorem mem_eraseKey {β : Type} {l : List (Nat × β)} {k : Nat} {p : Nat × β} :
    p ∈ eraseKey l k ↔ p ∈ l ∧ p.1 ≠ k := by
  simp [eraseKey, List.mem_filter]

theorem mem_setKey {β : Type} {l : List (Nat × β)} {k : Nat} {v : β} {p : Nat × β}
    (h : p ∈ setKey l k v) : p = (k, v) ∨ (p ∈ l ∧ p.1 ≠ k) := by
  unfold setKey at h
  cases hl : lookupKey l k with
  | some v0 =>
    rw [hl] at h
    rcases List.mem_map.mp h with ⟨q, hq, hfq⟩
    by_cases hk : q.1 = k
    · left
      rw [if_pos hk] at hfq
      rw [← hfq, hk]
    · right
      rw [if_neg hk] at hfq
      subst hfq
      exact ⟨hq, hk⟩
  | none =>
    rw [hl] at h
    rcases List.mem_append.mp h with h1 | h1
    · right
      refine ⟨h1, ?_⟩
      exact (lookupKey_eq_none_iff.mp hl) p h1
    · left; simpa using h1

theorem setKey_keys_nodup {β : Type} {l : List (Nat × β)} {k : Nat} {v : β}
    (h : (l.map Prod.fst).Nodup) : ((setKey l k v).map Prod.fst).Nodup := by
  unfold setKey
  cases hl : lookupKey l k with
  | some v0 =>
    have heq : (l.map (fun p => if p.1 = k then (p.1, v) else p)).map Prod.fst = l.map Prod.fst := by
      rw [List.map_map]
      apply List.map_congr_left
      intro p _
      by_cases hk : p.1 = k <;> simp [hk]
    rw [heq]
    exact h
  | none =>
    rw [List.map_append]
    simp only [List.map_cons, List.map_nil]
    rw [List.nodup_append]
    refine ⟨h, List.nodup_singleton _, ?_⟩
    intro a ha
    simp only [List.mem_singleton]
    intro hk
    subst hk
    rcases List.mem_map.mp ha with ⟨p, hp, hfst⟩
    exact absurd hfst ((lookupKey_eq_none_iff.mp hl) p hp)

theorem eraseKey_keys_nodup {β : Type} {l : List (Nat × β)} {k : Nat}
    (h : (l.map Prod.fst).Nodup) : ((eraseKey l k).map Prod.fst).Nodup := by
  unfold eraseKey
  exact (List.Sublist.map Prod.fst (List.filter_sublist l)).nodup h

theorem keys_nodup_unique {β : Type} {l : List (Nat × β)}
    (h : (l.map Prod.fst).Nodup) {k : Nat} {v v' : β}
    (h1 : (k, v) ∈ l) (h2 : (k, v') ∈ l) : v = v' := by
  induction l with
  | nil => simp at h1
  | cons p ps ih =>
    simp only [List.map_cons, List.nodup_cons] at h
    rcases List.mem_cons.mp h1 with e1 | m1 <;> rcases List.mem_cons.mp h2 with e2 | m2
    · rw [← e1] at e2
      exact (Prod.mk.injEq _ _ _ _ ▸ e2 : _ ∧ _).2.symm
    · exfalso
      apply h.1
      have : p.1 = k := by rw [← e1]
      rw [this]
      exact List.mem_map.mpr ⟨(k, v'), m2, rfl⟩
    · exfalso
      apply h.1
      have : p.1 = k := by rw [← e2]
      rw [this]
      exact List.mem_map.mpr ⟨(k, v), m1, rfl⟩
    · exact ih h.2 m1 m2

/-! ### Lookups through the update shapes used by the hub operations -/

theorem lookupKey_mapVal {β : Type} (g : β → β) (k0 : Nat) (l : List (Nat × β)) (k : Nat) :
    lookupKey (l.map (fun p => if p.1 = k0 then (p.1, g p.2) else p)) k =
      if k = k0 then (lookupKey l k).map g else lookupKey l k := by
  induction l with
  | nil => by_cases h : k = k0 <;> simp [lookupKey, h]
  | cons p ps ih =>
    by_cases hk : p.1 = k
    · by_cases h0 : p.1 = k0
      · have hkk0 : k = k0 := by rw [← hk, h0]
        simp [lookupKey, h0, hk, hkk0]
      · have hkk0 : ¬ k = k0 := by rw [← hk]; exact h0
        simp [lookupKey, h0, hk, hkk0]
    · by_cases h0 : p.1 = k0
      · simp only [List.map_cons, lookupKey, if_pos h0]
        have hh : ¬ (p.1, g p.2).1 = k := hk
        rw [if_neg hh, ih]
        by_cases hkk0 : k = k0
        · exact absurd (h0.trans hkk0.symm) hk
        · simp [lookupKey, hkk0, hk]
      · simp only [List.map_cons, lookupKey, if_neg h0]
        rw [if_neg hk, ih]
        by_cases hkk0 : k = k0
        · rw [if_pos hkk0, if_pos hkk0, if_neg hk]
        · simp [lookupKey, hkk0, hk]

theorem lookupKey_roomDropMember (rs : List (RoomId × List ClientId)) (r c k : Nat) :
    lookupKey (roomDropMember rs r c) k =
      if k = r then (lookupKey rs k).map (fun ms => ms.filter (fun x => !(x == c)))
      else lookupKey rs k := by
  unfold roomDropMember
  exact lookupKey_mapVal _ r rs k

theorem membersOf_mem_iff {rs : List (RoomId × List ClientId)} {k : Nat} {x : ClientId} :
    x ∈ membersOf rs k ↔ ∃ ms, lookupKey rs k = some ms ∧ x ∈ ms := by
  unfold membersOf
  cases h : lookupKey rs k <;> simp [h]

theorem mem_membersOf_roomDropMember {rs : List (RoomId × List ClientId)} {r c k x : Nat}
    (hx : x ∈ membersOf rs k) (hne : x ≠ c) : x ∈ membersOf (roomDropMember rs r c) k := by
  rcases membersOf_mem_iff.mp hx with ⟨ms, hlk, hxm⟩
  rw [membersOf_mem_iff, lookupKey_roomDropMember]
  by_cases hkr : k = r
  · exact ⟨ms.filter (fun y => !(y == c)), by rw [if_pos hkr, hlk]; rfl,
      List.mem_filter.mpr ⟨hxm, by simp [hne]⟩⟩
  · exact ⟨ms, by rw [if_neg hkr]; exact hlk, hxm⟩

theorem mem_membersOf_filterEmpty {rs : List (RoomId × List ClientId)} {r : RoomId}
    {k x : Nat} (hx : x ∈ membersOf rs k) :
    x ∈ membersOf (rs.filter (fun p => !(p.1 == r && p.2.isEmpty))) k := by
  induction rs with
  | nil => simp [membersOf, lookupKey] at hx
  | cons q qs ih =>
    by_cases hk : q.1 = k
    · have hq2 : x ∈ q.2 := by
        rcases membersOf_mem_iff.mp hx with ⟨ms, hlk, hxm⟩
        simp only [lookupKey, if_pos hk, Option.some_inj] at hlk
        rw [hlk]; exact hxm
      have hne : q.2.isEmpty = false := by
        cases h2 : q.2
        · rw [h2] at hq2; simp at hq2
        · rfl
      have hkeep : (!(q.1 == r && q.2.isEmpty)) = true := by
        rw [hne]; simp
      rw [List.filter_cons, if_pos hkeep, membersOf_mem_iff]
      exact ⟨q.2, by rw [lookupKey, if_pos hk], hq2⟩
    · have hx' : x ∈ membersOf qs k := by
        rcases membersOf_mem_iff.mp hx with ⟨ms, hlk, hxm⟩
        rw [lookupKey, if_neg hk] at hlk
        exact membersOf_mem_iff.mpr ⟨ms, hlk, hxm⟩
      rw [List.filter_cons]
      by_cases hkeep : (!(q.1 == r && q.2.isEmpty)) = true
      · rw [if_pos hkeep]
        rcases membersOf_mem_iff.mp (ih hx') with ⟨ms, hlk, hxm⟩
        exact membersOf_mem_iff.mpr ⟨ms, by rw [lookupKey, if_neg hk]; exact hlk, hxm⟩
      · rw [if_neg hkeep]
        exact ih hx'

theorem mem_membersOf_removeMemberDel {rs : List (RoomId × List ClientId)} {r c k x : Nat}
    (hx : x ∈ membersOf rs k) (hne : x ≠ c) : x ∈ membersOf (removeMemberDel rs r c) k :=
  mem_membersOf_filterEmpty (mem_membersOf_roomDropMember hx hne)

theorem mem_membersOf_removeFold {c : ClientId} :
    ∀ (L : List RoomId) (rs : List (RoomId × List ClientId)) (k x : Nat),
      x ∈ membersOf rs k → x ≠ c →
      x ∈ membersOf (L.foldl (fun rs r => removeMemberDel rs r c) rs) k := by
  intro L
  induction L with
  | nil => intro rs k x hx _; exact hx
  | cons r L ih =>
    intro rs k x hx hne
    rw [List.foldl_cons]
    exact ih _ k x (mem_membersOf_removeMemberDel hx hne) hne

/-! ### Fold and evolution machinery -/

theorem foldE_inv {α : Type} {P : World → Prop} {f : World → α → Except GoPanic World}
    (hf : ∀ w a w1, P w → f w a = .ok w1 → P w1) :
    ∀ (l : List α) (w w' : World), P w → foldE f w l = .ok w' → P w' := by
  intro l
  induction l with
  | nil =>
    intro w w' hP h
    rw [foldE] at h
    cases h
    exact hP
  | cons a as ih =>
    intro w w' hP h
    rw [foldE] at h
    cases hfa : f w a with
    | error e => rw [hfa] at h; cases h
    | ok w1 => rw [hfa] at h; exact ih w1 w' (hf w a w1 hP hfa) h

/-- What any step of the hub's send loops may do to the state, seen from a
client that stays un-closed: client table, user index and events untouched,
closed set only grows, and room membership is preserved. -/
def evolves (w w1 : World) : Prop :=
  w1.hub.clients = w.hub.clients ∧ w1.hub.userRooms = w.hub.userRooms ∧
  w1.events = w.events ∧
  (∀ x, x ∈ w.closed → x ∈ w1.closed) ∧
  (∀ x k, x ∉ w1.closed → x ∈ membersOf w.hub.rooms k → x ∈ membersOf w1.hub.rooms k)

theorem evolves_refl (w : World) : evolves w w :=
  ⟨rfl, rfl, rfl, fun _ h => h, fun _ _ _ h => h⟩

theorem evolves_trans {w w1 w2 : World} (h1 : evolves w w1) (h2 : evolves w1 w2) :
    evolves w w2 := by
  obtain ⟨c1, u1, e1, m1, r1⟩ := h1
  obtain ⟨c2, u2, e2, m2, r2⟩ := h2
  refine ⟨c2.trans c1, u2.trans u1, e2.trans e1, fun x hx => m2 x (m1 x hx), ?_⟩
  intro x k hx hm
  have hx1 : x ∉ w1.closed := fun hc => hx (m2 x hc)
  exact r2 x k hx (r1 x k hx1 hm)

theorem sendStep_evolves {r : RoomId} {m : Msg} {full : List ClientId} {w : World}
    {c : ClientId} {w1 : World} (h : sendStep r m full w c = .ok w1) : evolves w w1 := by
  unfold sendStep at h
  by_cases hc : c ∈ w.closed
  · rw [if_pos hc] at h; cases h
  · rw [if_neg hc] at h
    by_cases hf : c ∈ full
    · rw [if_pos hf] at h
      cases h
      refine ⟨rfl, rfl, rfl, fun x hx => List.mem_cons_of_mem _ hx, ?_⟩
      intro x k hx hm
      have hxc : x ≠ c := by
        intro he
        exact hx (he ▸ List.mem_cons_self c w.closed)
      exact mem_membersOf_roomDropMember hm hxc
    · rw [if_neg hf] at h
      cases h
      exact ⟨rfl, rfl, rfl, fun _ hx => hx, fun _ _ _ hm => hm⟩

theorem foldE_evolves {α : Type} {f : World → α → Except GoPanic World}
    (hf : ∀ w a w1, f w a = .ok w1 → evolves w w1) :
    ∀ (l : List α) (w w' : World), foldE f w l = .ok w' → evolves w w' := by
  intro l
  induction l with
  | nil =>
    intro w w' h
    rw [foldE] at h
    cases h
    exact evolves_refl _
  | cons a as ih =>
    intro w w' h
    rw [foldE] at h
    cases hfa : f w a with
    | error e => rw [hfa] at h; cases h
    | ok w1 => rw [hfa] at h; exact evolves_trans (hf w a w1 hfa) (ih w1 w' h)

theorem broadcastToRoom_evolves {w : World} {r : RoomId} {m : Msg}
    {full : List ClientId} {w' : World}
    (h : broadcastToRoom w r m full = .ok w') : evolves w w' := by
  simp only [broadcastToRoom] at h
  cases hlk : lookupKey w.hub.rooms r with
  | none =>
    rw [hlk] at h
    cases h
    exact ⟨rfl, rfl, rfl, fun _ hx => hx, fun _ _ _ hm => hm⟩
  | some ms =>
    rw [hlk] at h
    exact evolves_trans
      (⟨rfl, rfl, rfl, fun _ hx => hx, fun _ _ _ hm => hm⟩ :
        evolves w { w with bcasts := w.bcasts ++ [(r, m)] })
      (foldE_evolves (fun w2 a w1 hh => sendStep_evolves hh) ms _ w' h)

/-! ### Component characterizations of the send/broadcast paths -/

theorem sendStep_parts {r : RoomId} {m : Msg} {full : List ClientId} {w : World}
    {c : ClientId} {w1 : World} (h : sendStep r m full w c = .ok w1) :
    w1.hub.clients = w.hub.clients ∧ w1.hub.userRooms = w.hub.userRooms ∧
    w1.bcasts = w.bcasts ∧ w1.events = w.events ∧
    (∃ extra, w1.sent = w.sent ++ extra ∧ ∀ p ∈ extra, p.2 = m) := by
  unfold sendStep at h
  by_cases hc : c ∈ w.closed
  · rw [if_pos hc] at h; cases h
  · rw [if_neg hc] at h
    by_cases hf : c ∈ full
    · rw [if_pos hf] at h
      cases h
      exact ⟨rfl, rfl, rfl, rfl, [], by simp, by simp⟩
    · rw [if_neg hf] at h
      cases h
      refine ⟨rfl, rfl, rfl, rfl, [(c, m)], rfl, ?_⟩
      intro p hp
      rw [List.mem_singleton] at hp
      rw [hp]

theorem foldE_sendStep_parts {r : RoomId} {m : Msg} {full : List ClientId} :
    ∀ (ms : List ClientId) (w w' : World), foldE (sendStep r m full) w ms = .ok w' →
    w'.hub.clients = w.hub.clients ∧ w'.hub.userRooms = w.hub.userRooms ∧
    w'.bcasts = w.bcasts ∧ w'.events = w.events ∧
    (∃ extra, w'.sent = w.sent ++ extra ∧ ∀ p ∈ extra, p.2 = m) := by
  intro ms
  induction ms with
  | nil =>
    intro w w' h
    rw [foldE] at h
    cases h
    exact ⟨rfl, rfl, rfl, rfl, [], by simp, by simp⟩
  | cons c cs ih =>
    intro w w' h
    rw [foldE] at h
    cases hfa : sendStep r m full w c with
    | error e => rw [hfa] at h; cases h
    | ok w1 =>
      rw [hfa] at h
      obtain ⟨hc1, hu1, hb1, he1, ex1, hs1, hp1⟩ := sendStep_parts hfa
      obtain ⟨hc2, hu2, hb2, he2, ex2, hs2, hp2⟩ := ih w1 w' h
      refine ⟨hc2.trans hc1, hu2.trans hu1, hb2.trans hb1, he2.trans he1,
        ex1 ++ ex2, ?_, ?_⟩
      · rw [hs2, hs1, List.append_assoc]
      · intro p hp
        rcases List.mem_append.mp hp with h1 | h1
        · exact hp1 p h1
        · exact hp2 p h1

theorem broadcastToRoom_parts {w : World} {r : RoomId} {m : Msg}
    {full : List ClientId} {w' : World} (h : broadcastToRoom w r m full = .ok w') :
    w'.hub.clients = w.hub.clients ∧ w'.hub.userRooms = w.hub.userRooms ∧
    w'.bcasts = w.bcasts ++ [(r, m)] ∧ w'.events = w.events ∧
    (∃ extra, w'.sent = w.sent ++ extra ∧ ∀ p ∈ extra, p.2 = m) := by
  simp only [broadcastToRoom] at h
  cases hlk : lookupKey w.hub.rooms r with
  | none =>
    rw [hlk] at h
    cases h
    exact ⟨rfl, rfl, rfl, rfl, [], by simp, by simp⟩
  | some ms =>
    rw [hlk] at h
    obtain ⟨hc, hu, hb, he, ex, hs, hp⟩ := foldE_sendStep_parts ms _ w' h
    exact ⟨hc, hu, hb, he, ex, hs, hp⟩

theorem foldE_userLeave_parts {u : UserId} {name : String} {full : List ClientId} :
    ∀ (rs : List RoomId) (w w' : World),
    foldE (fun w2 r => broadcastToRoom w2 r (userLeaveMsg u name) full) w rs = .ok w' →
    w'.hub.clients = w.hub.clients ∧ w'.hub.userRooms = w.hub.userRooms ∧
    w'.events = w.events ∧
    w'.bcasts = w.bcasts ++ rs.map (fun r => (r, userLeaveMsg u name)) ∧
    (∃ extra, w'.sent = w.sent ++ extra ∧ ∀ p ∈ extra, p.2 = userLeaveMsg u name) := by
  intro rs
  induction rs with
  | nil =>
    intro w w' h
    rw [foldE] at h
    cases h
    exact ⟨rfl, rfl, rfl, by simp, [], by simp, by simp⟩
  | cons r rs ih =>
    intro w w' h
    rw [foldE] at h
    cases hfa : broadcastToRoom w r (userLeaveMsg u name) full with
    | error e => rw [hfa] at h; cases h
    | ok w1 =>
      rw [hfa] at h
      obtain ⟨hc1, hu1, hb1, he1, ex1, hs1, hp1⟩ := broadcastToRoom_parts hfa
      obtain ⟨hc2, hu2, he2, hb2, ex2, hs2, hp2⟩ := ih w1 w' h
      refine ⟨hc2.trans hc1, hu2.trans hu1, he2.trans he1, ?_, ex1 ++ ex2, ?_, ?_⟩
      · rw [hb2, hb1, List.append_assoc]
        rfl
      · rw [hs2, hs1, List.append_assoc]
      · intro p hp
        rcases List.mem_append.mp hp with h1 | h1
        · exact hp1 p h1
        · exact hp2 p h1

theorem removeClientFromAllRooms_parts {w : World} {c : ClientId} {cd : ClientData}
    {full : List ClientId} {w' : World}
    (h : removeClientFromAllRooms w c cd full = .ok w') :
    w'.hub.clients = w.hub.clients ∧
    w'.events = w.events ∧
    lookupKey w'.hub.userRooms cd.userID = none ∧
    w'.bcasts = w.bcasts ++ ((lookupKey w.hub.userRooms cd.userID).getD []).map
        (fun r => (r, userLeaveMsg cd.userID cd.username)) ∧
    (∃ extra, w'.sent = w.sent ++ extra ∧
        ∀ p ∈ extra, p.2 = userLeaveMsg cd.userID cd.username) := by
  simp only [removeClientFromAllRooms] at h
  split at h
  · next hur =>
    cases h
    refine ⟨rfl, rfl, hur, ?_, [], by simp, by simp⟩
    rw [show lookupKey w.hub.userRooms cd.userID = none from hur]
    simp
  · next rs hur =>
    split at h
    · cases h
    · next w2 hfold =>
      cases h
      obtain ⟨hc, hu, he, hb, ex, hs, hp⟩ := foldE_userLeave_parts rs _ w2 hfold
      refine ⟨hc, he, ?_, ?_, ex, hs, hp⟩
      · exact lookupKey_eraseKey_self _ _
      · rw [show lookupKey w.hub.userRooms cd.userID = some rs from hur]
        simpa using hb

theorem runUnregister_not_present {w : World} {c : ClientId} (full : List ClientId)
    (h : lookupKey w.hub.clients c = none) : runUnregister w c full = .ok w := by
  unfold runUnregister
  rw [h]

theorem runUnregister_gone {w : World} {c : ClientId} {full : List ClientId} {w1 : World}
    (h : runUnregister w c full = .ok w1) : lookupKey w1.hub.clients c = none := by
  unfold runUnregister at h
  split at h
  · next hc =>
    cases h
    exact hc
  · next cd hc =>
    split at h
    · cases h
    · next w2 hrem =>
      simp only [] at h
      split at h
      · cases h
      · cases h
        exact lookupKey_eraseKey_self _ _

theorem runUnregister_bcasts {w : World} {c : ClientId} {full : List ClientId} {w1 : World}
    (h : runUnregister w c full = .ok w1) :
    w1.bcasts = w.bcasts ++ (match lookupKey w.hub.clients c with
      | none => []
      | some cd => ((lookupKey w.hub.userRooms cd.userID).getD []).map
          (fun r => (r, userLeaveMsg cd.userID cd.username))) := by
  unfold runUnregister at h
  split at h
  · next hc =>
    cases h
    simp
  · next cd hc =>
    split at h
    · cases h
    · next w2 hrem =>
      simp only [] at h
      split at h
      · cases h
      · cases h
        exact (removeClientFromAllRooms_parts hrem).2.2.2.1

theorem userLeave_filter_nil {u : UserId} {name : String} {r0 : RoomId} :
    ∀ (urs : List RoomId), r0 ∉ urs →
    ((urs.map (fun r => (r, userLeaveMsg u name))).filter
        (fun p => decide (p.1 = r0) && decide (p.2.mtype = WSType.userLeave))) = [] := by
  intro urs
  induction urs with
  | nil => intro _; rfl
  | cons r urs ih =>
    intro hnm
    have hr : r ≠ r0 := fun he => hnm (he ▸ List.mem_cons_self r urs)
    simp only [List.map_cons, List.filter_cons]
    rw [if_neg (by simp [hr])]
    exact ih (fun hm => hnm (List.mem_cons_of_mem _ hm))

theorem userLeave_filter_le_one {u : UserId} {name : String} {r0 : RoomId} :
    ∀ (urs : List RoomId), urs.Nodup →
    ((urs.map (fun r => (r, userLeaveMsg u name))).filter
        (fun p => decide (p.1 = r0) && decide (p.2.mtype = WSType.userLeave))).length ≤ 1 := by
  intro urs
  induction urs with
  | nil => intro _; simp
  | cons r urs ih =>
    intro hnd
    rw [List.nodup_cons] at hnd
    simp only [List.map_cons, List.filter_cons]
    by_cases hr : r = r0
    · rw [if_pos (by simp [hr, userLeaveMsg])]
      rw [userLeave_filter_nil urs (hr ▸ hnd.1)]
      simp
    · rw [if_neg (by simp [hr])]
      exact ih hnd.2

/-- C6: unregistering a connection twice gives the same final state as doing
it once, and across the two calls at most one user-leave broadcast is issued
per room (the room-broadcast log gains at most one user-leave entry per room). -/
theorem C6_unregister_idempotent (w w1 w2 : World) (c : ClientId)
    (f1 f2 : List ClientId)
    (h1 : runUnregister w c f1 = .ok w1)
    (h2 : runUnregister w1 c f2 = .ok w2)
    (hnd : ∀ cd, lookupKey w.hub.clients c = some cd →
      ((lookupKey w.hub.userRooms cd.userID).getD []).Nodup) :
    w2 = w1 ∧
    ∀ r, ((w2.bcasts.drop w.bcasts.length).filter
        (fun p => decide (p.1 = r) && decide (p.2.mtype = WSType.userLeave))).length ≤ 1 := by
  have hgone := runUnregister_gone h1
  have hsecond := runUnregister_not_present f2 hgone
  rw [h2] at hsecond
  have hw21 : w2 = w1 := by
    cases hsecond
    rfl
  refine ⟨hw21, ?_⟩
  intro r
  rw [hw21]
  have hb := runUnregister_bcasts h1
  cases hc : lookupKey w.hub.clients c with
  | none =>
    rw [hc] at hb
    simp only [List.append_nil] at hb
    rw [hb, List.drop_length]
    simp
  | some cd =>
    rw [hc] at hb
    simp only [] at hb
    rw [hb, List.drop_left]
    exact userLeave_filter_le_one _ (hnd cd hc)

/-! ### The saturation-free executions of the unregister path -/

theorem membersOf_removeMemberDel_self (rs : List (RoomId × List ClientId))
    (r c : Nat) : c ∉ membersOf (removeMemberDel rs r c) r := by
  intro hmem
  rcases membersOf_mem_iff.mp hmem with ⟨ms, hlk, hxm⟩
  have hin := lookupKey_mem hlk
  unfold removeMemberDel at hin
  rcases (List.mem_filter.mp hin) with ⟨hin2, _⟩
  unfold roomDropMember at hin2
  rcases List.mem_map.mp hin2 with ⟨q, _, hfq⟩
  by_cases hq : q.1 = r
  · rw [if_pos hq] at hfq
    have : ms = q.2.filter (fun x => !(x == c)) := by
      have := congrArg Prod.snd hfq
      simpa using this.symm
    rw [this] at hxm
    rcases List.mem_filter.mp hxm with ⟨_, hcc⟩
    simp at hcc
  · rw [if_neg hq] at hfq
    have : q.1 = r := by
      have := congrArg Prod.fst hfq
      simpa using this
    exact hq this

theorem membersOf_removeMemberDel_ne (rs : List (RoomId × List ClientId))
    (r c k : Nat) (hk : k ≠ r) :
    membersOf (removeMemberDel rs r c) k = membersOf rs k := by
  induction rs with
  | nil => rfl
  | cons q qs ih =>
    by_cases hq : q.1 = r
    · have hqk : ¬ q.1 = k := fun he => hk (he.symm.trans hq)
      unfold removeMemberDel roomDropMember at *
      simp only [List.map_cons, if_pos hq, List.filter_cons]
      by_cases hkeep : (!((q.1, q.2.filter (fun x => !(x == c))).1 == r &&
          (q.1, q.2.filter (fun x => !(x == c))).2.isEmpty)) = true
      · rw [if_pos hkeep]
        show membersOf ((q.1, q.2.filter (fun x => !(x == c))) ::
          (qs.map _).filter _) k = _
        unfold membersOf
        rw [lookupKey, if_neg hqk]
        unfold membersOf at ih
        rw [ih, lookupKey, if_neg hqk]
      · rw [if_neg hkeep]
        unfold membersOf at *
        rw [ih, lookupKey, if_neg hqk]
    · unfold removeMemberDel roomDropMember at *
      simp only [List.map_cons, if_neg hq, List.filter_cons]
      have hkeep : (!(q.1 == r && q.2.isEmpty)) = true := by simp [hq]
      rw [if_pos hkeep]
      by_cases hqk : q.1 = k
      · unfold membersOf
        rw [lookupKey, if_pos hqk, lookupKey, if_pos hqk]
      · unfold membersOf at *
        rw [lookupKey, if_neg hqk, lookupKey, if_neg hqk]
        exact ih

theorem notMem_membersOf_removeFold {c : ClientId} :
    ∀ (L : List RoomId) (rs : List (RoomId × List ClientId)) (k : Nat),
      (k ∈ L ∨ c ∉ membersOf rs k) →
      c ∉ membersOf (L.foldl (fun rs r => removeMemberDel rs r c) rs) k := by
  intro L
  induction L with
  | nil =>
    intro rs k h
    rcases h with h | h
    · simp at h
    · exact h
  | cons r L ih =>
    intro rs k h
    rw [List.foldl_cons]
    apply ih
    by_cases hkr : k = r
    · rcases h with h | h
      · rcases List.mem_cons.mp h with h1 | h1
        · right; rw [hkr]; exact membersOf_removeMemberDel_self rs r c
        · left; exact h1
      · right; rw [hkr]; exact membersOf_removeMemberDel_self rs r c
    · rcases h with h | h
      · rcases List.mem_cons.mp h with h1 | h1
        · exact absurd h1 hkr
        · left; exact h1
      · right
        rw [membersOf_removeMemberDel_ne rs r c k hkr]
        exact h

theorem foldE_sendStep_nofull {r : RoomId} {m : Msg} :
    ∀ (ms : List ClientId) (w : World), w.closed = [] →
    foldE (sendStep r m []) w ms =
      .ok { w with sent := w.sent ++ ms.map (fun c => (c, m)) } := by
  intro ms
  induction ms with
  | nil =>
    intro w hcl
    rw [foldE]
    simp
  | cons c cs ih =>
    intro w hcl
    have hstep : sendStep r m [] w c = .ok { w with sent := w.sent ++ [(c, m)] } := by
      unfold sendStep
      rw [if_neg (by rw [hcl]; simp), if_neg (by simp)]
    have h1 : foldE (sendStep r m []) w (c :: cs) =
        foldE (sendStep r m []) { w with sent := w.sent ++ [(c, m)] } cs := by
      rw [foldE, hstep]
    rw [h1, ih { w with sent := w.sent ++ [(c, m)] } (by simpa using hcl)]
    simp [List.append_assoc]

theorem broadcastToRoom_nofull {w : World} {r : RoomId} {m : Msg}
    (hcl : w.closed = []) :
    broadcastToRoom w r m [] = .ok { w with
      sent := w.sent ++ (membersOf w.hub.rooms r).map (fun c => (c, m)),
      bcasts := w.bcasts ++ [(r, m)] } := by
  simp only [broadcastToRoom]
  cases hlk : lookupKey w.hub.rooms r with
  | none =>
    unfold membersOf
    rw [hlk]
    simp
  | some ms =>
    unfold membersOf
    rw [hlk]
    exact foldE_sendStep_nofull ms { w with bcasts := w.bcasts ++ [(r, m)] }
      (by simpa using hcl)

theorem foldE_userLeave_nofull (u : UserId) (name : String) :
    ∀ (rs : List RoomId) (w : World), w.closed = [] →
    ∃ w', foldE (fun w2 r => broadcastToRoom w2 r (userLeaveMsg u name) []) w rs = .ok w' ∧
      w'.hub = w.hub ∧ w'.closed = [] ∧ w'.events = w.events ∧
      (∀ r ∈ rs, ∀ x ∈ membersOf w.hub.rooms r, (x, userLeaveMsg u name) ∈ w'.sent) ∧
      (∃ extra, w'.sent = w.sent ++ extra ∧ ∀ p ∈ extra, p.2 = userLeaveMsg u name) := by
  intro rs
  induction rs with
  | nil =>
    intro w hcl
    refine ⟨w, by rw [foldE], rfl, hcl, rfl, by simp, [], by simp, by simp⟩
  | cons r rs ih =>
    intro w hcl
    have hbc := broadcastToRoom_nofull (w := w) (r := r) (m := userLeaveMsg u name) hcl
    set w1 : World := { w with
      sent := w.sent ++ (membersOf w.hub.rooms r).map (fun c => (c, userLeaveMsg u name)),
      bcasts := w.bcasts ++ [(r, userLeaveMsg u name)] } with hw1
    obtain ⟨w', hfold, hhub, hcl', hev, hmem, extra, hsent, hextra⟩ := ih w1 (by simpa using hcl)
    refine ⟨w', ?_, hhub, hcl', hev, ?_, ?_⟩
    · rw [foldE, hbc]
      exact hfold
    · intro r2 hr2 x hx
      rcases List.mem_cons.mp hr2 with he | hm
      · subst he
        have : (x, userLeaveMsg u name) ∈ w1.sent := by
          rw [hw1]
        
          exact List.mem_append_right _ (List.mem_map.mpr ⟨x, hx, rfl⟩)
        rw [hsent]
        exact List.mem_append_left _ this
      · exact hmem r2 hm x (by simpa using hx)
    · refine ⟨(membersOf w.hub.rooms r).map (fun c => (c, userLeaveMsg u name)) ++ extra, ?_, ?_⟩
      · rw [hsent, hw1]
        simp [List.append_assoc]
      · intro p hp
        rcases List.mem_append.mp hp with h1 | h1
        · rcases List.mem_map.mp h1 with ⟨x, _, hx⟩
          rw [← hx]
        · exact hextra p h1

theorem removeClientFromAllRooms_nofull (w : World) (c : ClientId) (cd : ClientData)
    (hcl : w.closed = []) :
    ∃ w1, removeClientFromAllRooms w c cd [] = .ok w1 ∧
      w1.hub.clients = w.hub.clients ∧
      w1.hub.rooms = cd.rooms.foldl (fun rs r => removeMemberDel rs r c) w.hub.rooms ∧
      lookupKey w1.hub.userRooms cd.userID = none ∧
      w1.closed = [] ∧
      (∀ r ∈ (lookupKey w.hub.userRooms cd.userID).getD [],
        ∀ x ∈ membersOf w1.hub.rooms r, (x, userLeaveMsg cd.userID cd.username) ∈ w1.sent) ∧
      (∃ extra, w1.sent = w.sent ++ extra ∧
        ∀ p ∈ extra, p.2 = userLeaveMsg cd.userID cd.username) := by
  simp only [removeClientFromAllRooms]
  cases hur : lookupKey w.hub.userRooms cd.userID with
  | none =>
    refine ⟨_, rfl, rfl, rfl, hur, hcl, ?_, [], by simp, by simp⟩
    intro r hr
    simp at hr
  | some rs =>
    simp only []
    obtain ⟨w2, hfold, hhub, hcl2, hev, hmem, extra, hsent, hextra⟩ :=
      foldE_userLeave_nofull cd.userID cd.username rs
        ⟨⟨w.hub.clients, cd.rooms.foldl (fun rs r => removeMemberDel rs r c) w.hub.rooms,
          w.hub.userRooms⟩, w.closed, w.sent, w.bcasts, w.events⟩ hcl
    rw [hfold]
    refine ⟨_, rfl, ?_, ?_, ?_, hcl2, ?_, extra, hsent, hextra⟩
    · show w2.hub.clients = w.hub.clients
      rw [hhub]
    · show w2.hub.rooms = _
      rw [hhub]
    · show lookupKey (eraseKey w2.hub.userRooms cd.userID) cd.userID = none
      exact lookupKey_eraseKey_self _ _
    · intro r hr x hx
      show (x, userLeaveMsg cd.userID cd.username) ∈ w2.sent
      apply hmem r (by simpa using hr) x
      have hrooms : w2.hub.rooms =
          cd.rooms.foldl (fun rs r => removeMemberDel rs r c) w.hub.rooms := by
        rw [hhub]
      rw [hrooms] at hx
      exact hx

/-- C5 (amended): on a saturation-free hub with no closed channels,
`Unregister(c)` removes `c` from the client set and from every room's member
set and deletes the owning user's whole `userRooms` entry; it emits one
user-leave broadcast for every room listed under the user — regardless of
whether the user still has other live connections — delivering the frame to
each such room's remaining members, and emits nothing else. -/
theorem C5_amended (w : World) (c : ClientId) (cd : ClientData)
    (hc : lookupKey w.hub.clients c = some cd)
    (hclosed : w.closed = [])
    (hinv2 : ∀ r, c ∈ membersOf w.hub.rooms r → r ∈ cd.rooms) :
    ∃ w', runUnregister w c [] = .ok w' ∧
      lookupKey w'.hub.clients c = none ∧
      (∀ r, c ∉ membersOf w'.hub.rooms r) ∧
      lookupKey w'.hub.userRooms cd.userID = none ∧
      w'.bcasts = w.bcasts ++ ((lookupKey w.hub.userRooms cd.userID).getD []).map
          (fun r => (r, userLeaveMsg cd.userID cd.username)) ∧
      (∀ r ∈ (lookupKey w.hub.userRooms cd.userID).getD [],
        ∀ x ∈ membersOf w'.hub.rooms r, (x, userLeaveMsg cd.userID cd.username) ∈ w'.sent) ∧
      (∃ extra, w'.sent = w.sent ++ extra ∧
        ∀ p ∈ extra, p.2 = userLeaveMsg cd.userID cd.username) := by
  obtain ⟨w1, hrem, hcli, hrooms, hur, hcl1, hmem, extra, hsent, hextra⟩ :=
    removeClientFromAllRooms_nofull w c cd hclosed
  have hnotin : c ∉ w1.closed := by
    rw [hcl1]
    exact List.not_mem_nil c
  have hrun : runUnregister w c [] = .ok ⟨⟨eraseKey w1.hub.clients c, w1.hub.rooms,
      w1.hub.userRooms⟩, c :: w1.closed, w1.sent, w1.bcasts, w1.events⟩ := by
    simp only [runUnregister, hc, hrem]
    rw [if_neg hnotin]
  refine ⟨_, hrun, lookupKey_eraseKey_self _ _, ?_, hur, ?_, ?_, extra, hsent, hextra⟩
  · intro r
    show c ∉ membersOf w1.hub.rooms r
    rw [hrooms]
    apply notMem_membersOf_removeFold
    by_cases hr : r ∈ cd.rooms
    · exact Or.inl hr
    · refine Or.inr (fun hmem2 => hr (hinv2 r hmem2))
  · show w1.bcasts = _
    exact (removeClientFromAllRooms_parts hrem).2.2.2.1
  · intro r hr x hx
    exact hmem r hr x hx

def c5pre : World :=
  ⟨⟨[(1, ⟨10, "a", [100]⟩), (2, ⟨10, "a", [100]⟩)], [(100, [1, 2])], [(10, [100])]⟩,
    [], [], [], []⟩

def c5post : World :=
  ⟨⟨[(2, ⟨10, "a", [100]⟩)], [(100, [2])], []⟩,
    [1], [(2, userLeaveMsg 10 "a")], [(100, userLeaveMsg 10 "a")], []⟩

/-- Witness for C5's amended theorem at a concrete two-device state. -/
theorem C5_amended_witness :
    runUnregister c5pre 1 [] = .ok c5post ∧
    lookupKey c5post.hub.clients 1 = none ∧
    1 ∉ membersOf c5post.hub.rooms 100 ∧
    lookupKey c5post.hub.userRooms 10 = none := by
  obtain ⟨w', h1, h2, h3, h4, _⟩ :=
    C5_amended c5pre 1 ⟨10, "a", [100]⟩ rfl rfl (fun r hr => by
      by_cases h100 : r = 100
      · rw [h100]; exact List.mem_singleton.mpr rfl
      · exfalso
        have hl : lookupKey c5pre.hub.rooms r = none := by
          show lookupKey [(100, [1, 2])] r = none
          rw [lookupKey, if_neg (fun he => h100 he.symm)]
          rfl
        rw [membersOf_mem_iff] at hr
        rcases hr with ⟨ms, hms, _⟩
        rw [hl] at hms
        cases hms)
  have hcomp : runUnregister c5pre 1 [] = .ok c5post := by rfl
  rw [hcomp] at h1
  cases h1
  exact ⟨hcomp, h2, h3 100, h4⟩

def c5ops : List HubOp :=
  [.register 1 10 "a", .register 2 10 "a", .joinRoom 10 100, .unregister 1 []]

def c5w : World :=
  ⟨⟨[(2, ⟨10, "a", [100]⟩)], [(100, [2])], []⟩,
    [1],
    [(1, ⟨.auth, .authAck 10⟩), (2, ⟨.auth, .authAck 10⟩), (2, userLeaveMsg 10 "a")],
    [(100, userLeaveMsg 10 "a")], []⟩

/-- Counterexample to C5 as stated: user 10 has two live connections 1 and 2,
both in room 100; unregistering connection 1 nevertheless emits a user-leave
broadcast for room 100 (connection 2, still live, receives it), because the
code keys the user-leave fan-out on `userRooms[user]`, not on whether this was
the user's last connection in the room. -/
theorem C5_counterexample :
    runOps c5ops = .ok c5w ∧
    lookupKey c5w.hub.clients 2 = some ⟨10, "a", [100]⟩ ∧
    (100, userLeaveMsg 10 "a") ∈ c5w.bcasts ∧
    (2, userLeaveMsg 10 "a") ∈ c5w.sent := by
  refine ⟨by rfl, by rfl, ?_, ?_⟩
  · show _ ∈ [(100, userLeaveMsg 10 "a")]
    exact List.mem_singleton.mpr rfl
  · decide

/-! ### C1: a reachable panic -/

def c1ops : List HubOp :=
  [.register 1 10 "a", .register 2 20 "b", .joinRoom 10 100, .joinRoom 20 100,
   .broadcastRoom 100 .message (.raw 0) [2], .broadcastUser 20 .message (.raw 1) []]

/-- C1 (code bug): from the empty hub, register clients 1 (user 10) and
2 (user 20), join both users to room 100, broadcast to room 100 while client
2's send queue is saturated — the slow-consumer branch removes client 2 from
the room and closes its channel but leaves it in `h.clients` — then
`BroadcastToUser(20, ...)` sends on the closed channel: a Go runtime panic,
contradicting the claim that no operation panics and that no enqueue ever
targets a closed queue. -/
theorem C1_panic : runOps c1ops = .error .sendOnClosedChannel := by rfl

/-! ### C2: room broadcast fan-out -/

theorem foldE_sendStep_chars {r : RoomId} {m : Msg} (full : List ClientId) :
    ∀ (ms : List ClientId) (w : World), ms.Nodup → (∀ c ∈ ms, c ∉ w.closed) →
    ∃ w', foldE (sendStep r m full) w ms = .ok w' ∧
      w'.sent = w.sent ++ (ms.filter (fun c => decide (c ∉ full))).map (fun c => (c, m)) ∧
      w'.hub.clients = w.hub.clients ∧ w'.hub.userRooms = w.hub.userRooms ∧
      w'.events = w.events ∧ w'.bcasts = w.bcasts ∧
      (∀ x ∈ w'.closed, x ∈ w.closed ∨ x ∈ ms) := by
  intro ms
  induction ms with
  | nil =>
    intro w _ _
    exact ⟨w, by rw [foldE], by simp, rfl, rfl, rfl, rfl, fun x hx => Or.inl hx⟩
  | cons c cs ih =>
    intro w hnd hopen
    rw [List.nodup_cons] at hnd
    have hcnc : c ∉ w.closed := hopen c (List.mem_cons_self c cs)
    by_cases hf : c ∈ full
    · have hstep : sendStep r m full w c = .ok { w with
          hub := { w.hub with rooms := roomDropMember w.hub.rooms r c },
          closed := c :: w.closed } := by
        unfold sendStep
        rw [if_neg hcnc, if_pos hf]
      obtain ⟨w', hfold, hsent, hcli, hur, hev, hbc, hcl⟩ :=
        ih { w with
              hub := { w.hub with rooms := roomDropMember w.hub.rooms r c },
              closed := c :: w.closed }
          hnd.2
          (fun c2 hc2 => by
            intro hmem
            rcases List.mem_cons.mp hmem with he | hm
            · exact hnd.1 (he ▸ hc2)
            · exact hopen c2 (List.mem_cons_of_mem _ hc2) hm)
      refine ⟨w', ?_, ?_, hcli, hur, hev, hbc, ?_⟩
      · rw [foldE, hstep]
        exact hfold
      · rw [hsent]
        rw [List.filter_cons, if_neg (by simp [hf])]
      · intro x hx
        rcases hcl x hx with hm | hm
        · rcases List.mem_cons.mp hm with he | hm2
          · exact Or.inr (he ▸ List.mem_cons_self c cs)
          · exact Or.inl hm2
        · exact Or.inr (List.mem_cons_of_mem _ hm)
    · have hstep : sendStep r m full w c = .ok { w with sent := w.sent ++ [(c, m)] } := by
        unfold sendStep
        rw [if_neg hcnc, if_neg hf]
      obtain ⟨w', hfold, hsent, hcli, hur, hev, hbc, hcl⟩ :=
        ih { w with sent := w.sent ++ [(c, m)] } hnd.2
          (fun c2 hc2 => hopen c2 (List.mem_cons_of_mem _ hc2))
      refine ⟨w', ?_, ?_, hcli, hur, hev, hbc, ?_⟩
      · rw [foldE, hstep]
        exact hfold
      · rw [hsent]
        rw [List.filter_cons, if_pos (by simp [hf])]
        simp [List.append_assoc]
      · intro x hx
        rcases hcl x hx with hm | hm
        · exact Or.inl hm
        · exact Or.inr (List.mem_cons_of_mem _ hm)

/-- C2 (amended): `broadcastToRoom(r, f)`, on a state whose members of `r`
have open channels, enqueues `f` on exactly the members of `r` whose send
queue is not saturated (in member order); saturated members are dropped from
the room and closed instead of receiving `f`; no other connection receives
anything, and the client table, user index and events are untouched.  When
`r` has no entry, no frame is delivered and the hub state is unchanged —
not an error. -/
theorem C2_amended (w : World) (r : RoomId) (m : Msg) (full : List ClientId)
    (hnd : (membersOf w.hub.rooms r).Nodup)
    (hopen : ∀ c ∈ membersOf w.hub.rooms r, c ∉ w.closed) :
    (∃ w', broadcastToRoom w r m full = .ok w' ∧
       w'.sent = w.sent ++ ((membersOf w.hub.rooms r).filter
           (fun c => decide (c ∉ full))).map (fun c => (c, m)) ∧
       w'.hub.clients = w.hub.clients ∧ w'.hub.userRooms = w.hub.userRooms ∧
       w'.events = w.events) ∧
    (lookupKey w.hub.rooms r = none →
       broadcastToRoom w r m full = .ok { w with bcasts := w.bcasts ++ [(r, m)] }) := by
  constructor
  · simp only [broadcastToRoom]
    cases hlk : lookupKey w.hub.rooms r with
    | none =>
      refine ⟨{ w with bcasts := w.bcasts ++ [(r, m)] }, rfl, ?_, rfl, rfl, rfl⟩
      unfold membersOf
      rw [hlk]
      simp
    | some ms =>
      have hms : membersOf w.hub.rooms r = ms := by
        unfold membersOf
        rw [hlk]
        rfl
      rw [hms] at hnd hopen
      obtain ⟨w', hfold, hsent, hcli, hur, hev, _, _⟩ :=
        foldE_sendStep_chars (r := r) (m := m) full ms
          { w with bcasts := w.bcasts ++ [(r, m)] } hnd hopen
      exact ⟨w', hfold, by rw [hsent, hms], hcli, hur, hev⟩
  · intro hlk
    simp only [broadcastToRoom]
    rw [hlk]

def c2wit : World := ⟨⟨[], [(100, [1, 2])], []⟩, [], [], [], []⟩

def c2witAfter : World :=
  ⟨⟨[], [(100, [1])], []⟩, [2], [(1, ⟨.message, .raw 7⟩)],
   [(100, ⟨.message, .raw 7⟩)], []⟩

/-- Witness for C2's amended theorem: room 100 has members 1 and 2, member 2
is saturated; the frame reaches exactly member 1. -/
theorem C2_amended_witness :
    broadcastToRoom c2wit 100 ⟨.message, .raw 7⟩ [2] = .ok c2witAfter ∧
    c2witAfter.sent = [(1, (⟨.message, .raw 7⟩ : Msg))] := by
  obtain ⟨⟨w', h1, h2, _⟩, _⟩ :=
    C2_amended c2wit 100 ⟨.message, .raw 7⟩ [2] (by decide) (by decide)
  have hcomp : broadcastToRoom c2wit 100 ⟨.message, .raw 7⟩ [2] = .ok c2witAfter := by rfl
  exact ⟨hcomp, by rfl⟩

def c2ops : List HubOp :=
  [.register 1 10 "a", .register 2 20 "b", .joinRoom 10 100, .joinRoom 20 100]

def c2w : World :=
  ⟨⟨[(1, ⟨10, "a", [100]⟩), (2, ⟨20, "b", [100]⟩)], [(100, [1, 2])],
    [(10, [100]), (20, [100])]⟩,
   [], [(1, ⟨.auth, .authAck 10⟩), (2, ⟨.auth, .authAck 20⟩)], [], []⟩

def c2w2 : World :=
  ⟨⟨[(1, ⟨10, "a", [100]⟩), (2, ⟨20, "b", [100]⟩)], [(100, [1])],
    [(10, [100]), (20, [100])]⟩,
   [2],
   [(1, ⟨.auth, .authAck 10⟩), (2, ⟨.auth, .authAck 20⟩), (1, ⟨.message, .raw 7⟩)],
   [(100, ⟨.message, .raw 7⟩)], []⟩

/-- Counterexample to C2 as stated: in the reachable state where clients 1 and
2 are both subscribed to room 100, a `BroadcastToRoom` issued while member 2's
send queue is saturated does not enqueue the frame on member 2 — it drops and
closes that connection — so not every member subscribed at the instant of the
call receives the frame. -/
theorem C2_counterexample :
    runOps c2ops = .ok c2w ∧
    2 ∈ membersOf c2w.hub.rooms 100 ∧
    BroadcastToRoom c2w 100 .message (.raw 7) [2] = .ok c2w2 ∧
    ¬ (2, (⟨.message, .raw 7⟩ : Msg)) ∈ c2w2.sent := by
  exact ⟨by rfl, by decide, by rfl, by decide⟩

/-! ### C8 and C10: the inbound typing handlers -/

/-- C8: an inbound `typing_start`/`typing_stop` frame whose payload is not an
object, lacks a `room_id` field, carries a non-string `room_id`, or carries
one that `uuid.Parse` rejects, is silently dropped: no typing domain event is
published, no broadcast is made, and the whole state — membership, channels,
logs — is returned unchanged, so the connection stays open. -/
theorem C8_typing_invalid_dropped (parse : String → Option RoomId) (w : World)
    (cd : ClientData) (data : JValue) (full : List ClientId)
    (hfail : typingRoomId parse data = none) :
    handleTypingStart parse w cd data full = .ok w ∧
    handleTypingStop parse w cd data full = .ok w := by
  unfold handleTypingStart handleTypingStop
  rw [hfail]
  exact ⟨rfl, rfl⟩

/-- Witness for C8 at the payload `{}` of Scenario E (an object with no
`room_id` field). -/
theorem C8_witness :
    handleTypingStart (fun _ => none) World.init ⟨20, "u", []⟩ (.obj []) [] =
      .ok World.init ∧
    handleTypingStop (fun _ => none) World.init ⟨20, "u", []⟩ (.obj []) [] =
      .ok World.init :=
  C8_typing_invalid_dropped (fun _ => none) World.init ⟨20, "u", []⟩ (.obj []) [] rfl

def c10ops : List HubOp :=
  [.register 1 10 "u1", .register 2 20 "u2", .joinRoom 10 100]

def c10parse : String → Option RoomId :=
  fun s => if s = "room-100" then some 100 else none

def c10w : World :=
  ⟨⟨[(1, ⟨10, "u1", [100]⟩), (2, ⟨20, "u2", []⟩)], [(100, [1])], [(10, [100])]⟩,
   [], [(1, ⟨.auth, .authAck 10⟩), (2, ⟨.auth, .authAck 20⟩)], [], []⟩

def c10w2 : World :=
  ⟨⟨[(1, ⟨10, "u1", [100]⟩), (2, ⟨20, "u2", []⟩)], [(100, [1])], [(10, [100])]⟩,
   [],
   [(1, ⟨.auth, .authAck 10⟩), (2, ⟨.auth, .authAck 20⟩),
    (1, ⟨.typingStart, .typingData 100 20 "u2"⟩)],
   [(100, ⟨.typingStart, .typingData 100 20 "u2"⟩)],
   [(100, 20, true)]⟩

/-- C10: in the reachable state where client 1 (user 10) is the sole member of
room 100 and client 2 (user 20) is not subscribed to it, an inbound
typing_start frame from client 2 naming room 100 still publishes a typing
domain event for room 100 and broadcasts a typing-start frame to member 1:
the handler performs no membership check on the sender. -/
theorem C10_no_membership_check :
    runOps c10ops = .ok c10w ∧
    lookupKey c10w.hub.clients 2 = some ⟨20, "u2", []⟩ ∧
    (2 ∈ membersOf c10w.hub.rooms 100 → False) ∧
    handleTypingStart c10parse c10w ⟨20, "u2", []⟩
      (.obj [("room_id", .str "room-100")]) [] = .ok c10w2 ∧
    (100, 20, true) ∈ c10w2.events ∧
    (1, (⟨.typingStart, .typingData 100 20 "u2"⟩ : Msg)) ∈ c10w2.sent := by
  refine ⟨by rfl, by rfl, by decide, by rfl, by decide, by decide⟩

/-! ### C3 and C4: the stated invariants fail on the code -/

/-- Invariant (a) of the spec's Membership Index, as stated: every connection
in the client set has a room set that is a subset of the rooms whose member
set contains it. -/
def crossRefOk (w : World) : Prop :=
  ∀ p ∈ w.hub.clients, ∀ r ∈ p.2.rooms, p.1 ∈ membersOf w.hub.rooms r

instance : DecidablePred crossRefOk := fun w => by
  unfold crossRefOk
  infer_instance

def c3ops : List HubOp :=
  [.register 1 10 "a", .register 2 20 "b", .joinRoom 10 100, .joinRoom 20 100,
   .broadcastRoom 100 .message (.raw 0) [2]]

def c3w : World :=
  ⟨⟨[(1, ⟨10, "a", [100]⟩), (2, ⟨20, "b", [100]⟩)], [(100, [1])],
    [(10, [100]), (20, [100])]⟩,
   [2],
   [(1, ⟨.auth, .authAck 10⟩), (2, ⟨.auth, .authAck 20⟩), (1, ⟨.message, .raw 0⟩)],
   [(100, ⟨.message, .raw 0⟩)], []⟩

/-- Counterexample to C3 as stated: after a room broadcast drops saturated
member 2, client 2 is still in the client set with room 100 in its room set,
but is no longer in room 100's member set — a dangling cross-reference. -/
theorem C3_counterexample : runOps c3ops = .ok c3w ∧ ¬ crossRefOk c3w := by
  exact ⟨by rfl, by decide⟩

def c4w : World := ⟨⟨[], [(100, [])], [(10, [100])]⟩, [], [], [], []⟩

/-- Counterexample to C4 as stated: `JoinRoom(10, 100)` on the empty hub (user
10 has no live connection) creates the room entry before scanning clients and
leaves it empty — a present-and-empty entry in `roomMembers`. -/
theorem C4_counterexample :
    runOps [.joinRoom 10 100] = .ok c4w ∧ lookupKey c4w.hub.rooms 100 = some [] := by
  exact ⟨by rfl, by rfl⟩

/-- Witness for C6 at the concrete two-device state: unregistering connection
1 twice ends in the same state as once, with at most one user-leave broadcast
for room 100. -/
theorem C6_unregister_idempotent_witness :
    c5post = c5post ∧
    ((c5post.bcasts.drop c5pre.bcasts.length).filter
        (fun p => decide (p.1 = 100) && decide (p.2.mtype = WSType.userLeave))).length ≤ 1 := by
  obtain ⟨h1, h2⟩ := C6_unregister_idempotent c5pre c5post c5post 1 [] [] (by rfl) (by rfl)
    (fun cd hcd => by
      have he : some (⟨10, "a", [100]⟩ : ClientData) = some cd := by
        rw [← hcd]
        rfl
      rw [Option.some_inj] at he
      rw [← he]
      decide)
  exact ⟨h1, h2 100⟩

/-! ### C4: sparseness of the room index -/

/-- Invariant (b) of the spec's Membership Index, as stated: every room entry
present in `roomMembers` has a non-empty member set. -/
def roomsNonempty (w : World) : Prop := ∀ p ∈ w.hub.rooms, p.2 ≠ []

/-- The side conditions under which the sparseness invariant survives an
operation: joins target a user with at least one live connection, and no
broadcast of the operation meets a saturated send queue. -/
def goodOp (w : World) : HubOp → Prop
  | .register _ _ _ => True
  | .unregister _ full => full = []
  | .joinRoom u _ => ∃ p ∈ w.hub.clients, p.2.userID = u
  | .leaveRoom _ _ => True
  | .broadcastRoom _ _ _ full => full = []
  | .broadcastUser _ _ _ full => full = []
  | .broadcastAll _ _ full => full = []

theorem sendStep_nofull_hub {r : RoomId} {m : Msg} {w : World} {c : ClientId}
    {w1 : World} (h : sendStep r m [] w c = .ok w1) : w1.hub = w.hub := by
  unfold sendStep at h
  by_cases hc : c ∈ w.closed
  · rw [if_pos hc] at h; cases h
  · rw [if_neg hc, if_neg (List.not_mem_nil c)] at h
    cases h
    rfl

theorem broadcastToRoom_nofull_hub {w : World} {r : RoomId} {m : Msg} {w' : World}
    (h : broadcastToRoom w r m [] = .ok w') : w'.hub = w.hub := by
  simp only [broadcastToRoom] at h
  cases hlk : lookupKey w.hub.rooms r with
  | none =>
    rw [hlk] at h
    cases h
    rfl
  | some ms =>
    rw [hlk] at h
    exact foldE_inv (P := fun wa => wa.hub = w.hub) (f := sendStep r m [])
      (fun wa a wb hP hstep => (sendStep_nofull_hub hstep).trans hP) ms
      { w with bcasts := w.bcasts ++ [(r, m)] } w' rfl h

theorem clientSendStep_nofull_hub {m : Msg} {w : World} {ent : ClientId × ClientData}
    {w1 : World} (h : clientSendStep m [] w ent = .ok w1) : w1.hub = w.hub := by
  unfold clientSendStep at h
  by_cases hc : ent.1 ∈ w.closed
  · rw [if_pos hc] at h; cases h
  · rw [if_neg hc, if_neg (List.not_mem_nil ent.1)] at h
    cases h
    rfl

theorem filterDrop_nonempty {rs : List (RoomId × List ClientId)} {r : Nat}
    (f : ClientId → Bool) (h : ∀ p ∈ rs, p.2 ≠ []) :
    ∀ p ∈ (rs.map (fun p => if p.1 = r then (p.1, p.2.filter f) else p)).filter
        (fun p => !(p.1 == r && p.2.isEmpty)), p.2 ≠ [] := by
  intro p hp
  rcases List.mem_filter.mp hp with ⟨hpm, hcond⟩
  rcases List.mem_map.mp hpm with ⟨q, hq, hfq⟩
  by_cases hqr : q.1 = r
  · rw [if_pos hqr] at hfq
    subst hfq
    intro hemp
    have h3 : q.2.filter f = [] := hemp
    have h4 : ((q.1, q.2.filter f).1 == r && (q.1, q.2.filter f).2.isEmpty) = true := by
      show (q.1 == r && (q.2.filter f).isEmpty) = true
      rw [h3, show (q.1 == r) = true from beq_iff_eq.mpr hqr]
      rfl
    rw [h4] at hcond
    exact Bool.noConfusion hcond
  · rw [if_neg hqr] at hfq
    subst hfq
    exact h q hq

theorem removeMemberDel_nonempty {rs : List (RoomId × List ClientId)} {r c : Nat}
    (h : ∀ p ∈ rs, p.2 ≠ []) : ∀ p ∈ removeMemberDel rs r c, p.2 ≠ [] := by
  unfold removeMemberDel roomDropMember
  exact filterDrop_nonempty (fun x => !(x == c)) h

theorem removeFold_nonempty {c : ClientId} :
    ∀ (L : List RoomId) (rs : List (RoomId × List ClientId)),
      (∀ p ∈ rs, p.2 ≠ []) →
      ∀ p ∈ L.foldl (fun rs r => removeMemberDel rs r c) rs, p.2 ≠ [] := by
  intro L
  induction L with
  | nil => intro rs h; exact h
  | cons r L ih =>
    intro rs h
    rw [List.foldl_cons]
    exact ih _ (removeMemberDel_nonempty h)

theorem insertId_ne_nil (l : List Nat) (x : Nat) : insertId l x ≠ [] := by
  unfold insertId
  by_cases hx : x ∈ l
  · rw [if_pos hx]
    exact List.ne_nil_of_mem hx
  · rw [if_neg hx]
    simp

theorem removeClientFromAllRooms_nofull_rooms {w : World} {c : ClientId}
    {cd : ClientData} {w1 : World}
    (h : removeClientFromAllRooms w c cd [] = .ok w1) :
    w1.hub.rooms = cd.rooms.foldl (fun rs r => removeMemberDel rs r c) w.hub.rooms := by
  simp only [removeClientFromAllRooms] at h
  split at h
  · next hur =>
    cases h
    rfl
  · next rs hur =>
    split at h
    · cases h
    · next w2 hfold =>
      cases h
      have : w2.hub = { w.hub with
          rooms := cd.rooms.foldl (fun rs r => removeMemberDel rs r c) w.hub.rooms } := by
        refine foldE_inv (P := fun wa => wa.hub = { w.hub with
            rooms := cd.rooms.foldl (fun rs r => removeMemberDel rs r c) w.hub.rooms })
          (fun wa a wb hP hstep => (broadcastToRoom_nofull_hub hstep).trans hP)
          rs _ w2 rfl hfold
      show w2.hub.rooms = _
      rw [this]

theorem foldAdd_QR {r : RoomId} :
    ∀ (L : List (ClientId × ClientData)) (rs : List (RoomId × List ClientId)),
      (∀ p ∈ rs, p.1 ≠ r → p.2 ≠ []) → (∀ p ∈ rs, p.1 = r → p.2 ≠ []) →
      ∀ p ∈ L.foldl (fun rs ent =>
          rs.map (fun q => if q.1 = r then (q.1, insertId q.2 ent.1) else q)) rs,
        p.2 ≠ [] := by
  intro L
  induction L with
  | nil =>
    intro rs hQ hR p hp
    by_cases hr : p.1 = r
    · exact hR p hp hr
    · exact hQ p hp hr
  | cons a L ih =>
    intro rs hQ hR
    rw [List.foldl_cons]
    apply ih
    · intro p hp hr
      rcases List.mem_map.mp hp with ⟨q, hq, hfq⟩
      by_cases hqr : q.1 = r
      · rw [if_pos hqr] at hfq
        exact absurd (hfq ▸ hqr : p.1 = r) hr
      · rw [if_neg hqr] at hfq
        exact hQ p (hfq ▸ hq) hr
    · intro p hp _
      rcases List.mem_map.mp hp with ⟨q, hq, hfq⟩
      by_cases hqr : q.1 = r
      · rw [if_pos hqr] at hfq
        rw [← hfq]
        exact insertId_ne_nil q.2 a.1
      · rw [if_neg hqr] at hfq
        subst hfq
        by_cases hqr2 : q.1 = r
        · exact absurd hqr2 hqr
        · exact hQ q hq hqr2

theorem JoinRoom_nonempty {w : World} {u : UserId} {r : RoomId}
    (hne : ∃ p ∈ w.hub.clients, p.2.userID = u)
    (h : roomsNonempty w) : roomsNonempty (JoinRoom w u r) := by
  intro p hp
  have hp2 : p ∈ (w.hub.clients.filter (fun ent => ent.2.userID == u)).foldl
      (fun rs ent => rs.map (fun q => if q.1 = r then (q.1, insertId q.2 ent.1) else q))
      (if hasKey w.hub.rooms r then w.hub.rooms else w.hub.rooms ++ [(r, [])]) := hp
  have hQ0 : ∀ q ∈ (if hasKey w.hub.rooms r then w.hub.rooms
      else w.hub.rooms ++ [(r, [])]), q.1 ≠ r → q.2 ≠ [] := by
    intro q hq _
    by_cases hk : hasKey w.hub.rooms r
    · rw [if_pos hk] at hq
      exact h q hq
    · rw [if_neg hk] at hq
      rcases List.mem_append.mp hq with h1 | h1
      · exact h q h1
      · rename_i hqr
        rw [List.mem_singleton] at h1
        exact absurd (by rw [h1]) hqr
  obtain ⟨a, ha, hau⟩ := hne
  have hmemf : a ∈ w.hub.clients.filter (fun ent => ent.2.userID == u) :=
    List.mem_filter.mpr ⟨ha, by simp [hau]⟩
  cases hfl : w.hub.clients.filter (fun ent => ent.2.userID == u) with
  | nil =>
    rw [hfl] at hmemf
    cases hmemf
  | cons b L =>
    rw [hfl] at hp2
    rw [List.foldl_cons] at hp2
    refine foldAdd_QR L _ ?_ ?_ p hp2
    · intro q hq hqr
      rcases List.mem_map.mp hq with ⟨q0, hq0, hfq⟩
      by_cases hq0r : q0.1 = r
      · rw [if_pos hq0r] at hfq
        exact absurd (hfq ▸ hq0r : q.1 = r) hqr
      · rw [if_neg hq0r] at hfq
        exact hQ0 q (hfq ▸ hq0) hqr
    · intro q hq _
      rcases List.mem_map.mp hq with ⟨q0, hq0, hfq⟩
      by_cases hq0r : q0.1 = r
      · rw [if_pos hq0r] at hfq
        rw [← hfq]
        exact insertId_ne_nil q0.2 b.1
      · rw [if_neg hq0r] at hfq
        subst hfq
        by_cases hq0r2 : q0.1 = r
        · exact absurd hq0r2 hq0r
        · exact hQ0 q0 hq0 hq0r2

theorem LeaveRoom_nonempty {w : World} {u : UserId} {r : RoomId}
    (h : roomsNonempty w) : roomsNonempty (LeaveRoom w u r) := by
  unfold LeaveRoom
  by_cases hk : hasKey w.hub.rooms r
  · rw [if_pos hk]
    intro p hp
    exact filterDrop_nonempty
      (fun x => !(((w.hub.clients.filter (fun ent => ent.2.userID == u)).map (·.1)).contains x))
      h p hp
  · rw [if_neg hk]
    intro p hp
    exact h p hp

theorem runRegister_rooms {w : World} {c : ClientId} {u : UserId} {name : String}
    {w' : World} (h : runRegister w c u name = .ok w') :
    w'.hub.rooms = w.hub.rooms := by
  simp only [runRegister] at h
  split at h
  · cases h
  · cases h
    rfl

/-- C4 (amended): the sparseness invariant — every room key in `roomMembers`
maps to a non-empty member set — holds in the empty hub and is preserved by
every operation under two side conditions the code violates otherwise: a
JoinRoom must target a user with at least one live connection (else the
freshly created entry stays empty), and no broadcast of the operation may meet
a saturated send queue (else the slow-consumer drop can empty an entry without
removing it). -/
theorem C4_amended :
    roomsNonempty World.init ∧
    ∀ w op w', roomsNonempty w → goodOp w op → applyOp w op = .ok w' →
      roomsNonempty w' := by
  constructor
  · intro p hp
    cases hp
  · intro w op w' hinv hgood happ
    cases op with
    | register c u name =>
      intro p hp
      rw [runRegister_rooms happ] at hp
      exact hinv p hp
    | unregister c full =>
      have hfull : full = [] := hgood
      subst hfull
      simp only [applyOp, runUnregister] at happ
      split at happ
      · cases happ
        exact hinv
      · next cd hc =>
        split at happ
        · cases happ
        · next w2 hrem =>
          split at happ
          · cases happ
          · cases happ
            intro p hp
            have hrooms := removeClientFromAllRooms_nofull_rooms hrem
            refine removeFold_nonempty (c := c) cd.rooms w.hub.rooms hinv p ?_
            rw [← hrooms]
            exact hp
    | joinRoom u r =>
      cases happ
      exact JoinRoom_nonempty hgood hinv
    | leaveRoom u r =>
      cases happ
      exact LeaveRoom_nonempty hinv
    | broadcastRoom r t pl full =>
      have hfull : full = [] := hgood
      subst hfull
      intro p hp
      rw [show w'.hub = w.hub from broadcastToRoom_nofull_hub happ] at hp
      exact hinv p hp
    | broadcastUser u t pl full =>
      have hfull : full = [] := hgood
      subst hfull
      simp only [applyOp, BroadcastToUser] at happ
      have hhub : w'.hub = w.hub := by
        refine foldE_inv (P := fun wa => wa.hub = w.hub)
          (f := fun w1 ent => if ent.2.userID = u then clientSendStep ⟨t, pl⟩ [] w1 ent
            else .ok w1)
          ?_ w.hub.clients w w' rfl happ
        intro wa a wb hP hstep
        have hstep2 : (if a.2.userID = u then clientSendStep ⟨t, pl⟩ [] wa a
            else Except.ok wa) = Except.ok wb := hstep
        by_cases hau : a.2.userID = u
        · rw [if_pos hau] at hstep2
          exact (clientSendStep_nofull_hub hstep2).trans hP
        · rw [if_neg hau] at hstep2
          cases hstep2
          exact hP
      intro p hp
      rw [hhub] at hp
      exact hinv p hp
    | broadcastAll t pl full =>
      have hfull : full = [] := hgood
      subst hfull
      simp only [applyOp, runBroadcast] at happ
      have hhub : w'.hub = w.hub := by
        refine foldE_inv (P := fun wa => wa.hub = w.hub)
          (f := clientSendStep ⟨t, pl⟩ [])
          (fun wa a wb hP hstep => (clientSendStep_nofull_hub hstep).trans hP)
          w.hub.clients w w' rfl happ
      intro p hp
      rw [hhub] at hp
      exact hinv p hp

/-- Witness for C4's amended preservation at a concrete step: joining user 10
(which has a live connection) to room 100 from a registered one-client state
keeps every room entry non-empty. -/
theorem C4_amended_witness :
    roomsNonempty World.init ∧
    roomsNonempty (JoinRoom ⟨⟨[(1, ⟨10, "a", []⟩)], [], []⟩, [], [], [], []⟩ 10 100) := by
  refine ⟨C4_amended.1, ?_⟩
  refine C4_amended.2 ⟨⟨[(1, ⟨10, "a", []⟩)], [], []⟩, [], [], [], []⟩
    (.joinRoom 10 100) _ ?_ ?_ rfl
  · intro p hp
    cases hp
  · exact ⟨(1, ⟨10, "a", []⟩), by decide, rfl⟩

/-! ### C3: the cross-reference invariant, restricted to open connections -/

def clientKeysNodup (w : World) : Prop := (w.hub.clients.map Prod.fst).Nodup

/-- Invariant (a) restricted to connections whose send channel is still open:
their room set is a subset of the rooms whose member set contains them. -/
def crossRefOkOpen (w : World) : Prop :=
  ∀ p ∈ w.hub.clients, p.1 ∉ w.closed → ∀ r ∈ p.2.rooms, p.1 ∈ membersOf w.hub.rooms r

instance : DecidablePred crossRefOkOpen := fun w => by
  unfold crossRefOkOpen
  infer_instance

def hubInv (w : World) : Prop := clientKeysNodup w ∧ crossRefOkOpen w

theorem insertId_mem_of_mem {l : List Nat} {x : Nat} (y : Nat) (h : x ∈ l) :
    x ∈ insertId l y := by
  unfold insertId
  by_cases hy : y ∈ l
  · rw [if_pos hy]; exact h
  · rw [if_neg hy]; exact List.mem_append_left _ h

theorem insertId_self_mem (l : List Nat) (y : Nat) : y ∈ insertId l y := by
  unfold insertId
  by_cases hy : y ∈ l
  · rw [if_pos hy]; exact hy
  · rw [if_neg hy]; exact List.mem_append_right _ (List.mem_singleton.mpr rfl)

theorem mem_insertId {l : List Nat} {x y : Nat} (h : x ∈ insertId l y) :
    x ∈ l ∨ x = y := by
  unfold insertId at h
  by_cases hy : y ∈ l
  · rw [if_pos hy] at h; exact Or.inl h
  · rw [if_neg hy] at h
    rcases List.mem_append.mp h with h1 | h1
    · exact Or.inl h1
    · exact Or.inr (List.mem_singleton.mp h1)

theorem lookupKey_append_left {β : Type} {l : List (Nat × β)} {k : Nat} {v : β}
    (l2 : List (Nat × β)) (h : lookupKey l k = some v) :
    lookupKey (l ++ l2) k = some v := by
  induction l with
  | nil => simp [lookupKey] at h
  | cons p ps ih =>
    by_cases hk : p.1 = k
    · rw [lookupKey, if_pos hk] at h
      rw [List.cons_append, lookupKey, if_pos hk]
      exact h
    · rw [lookupKey, if_neg hk] at h
      rw [List.cons_append, lookupKey, if_neg hk]
      exact ih h

theorem hasKey_append_self {β : Type} (l : List (Nat × β)) (k : Nat) (v : β) :
    hasKey (l ++ [(k, v)]) k = true := by
  unfold hasKey
  cases hl : lookupKey l k with
  | some v0 => rw [lookupKey_append_left _ hl]; rfl
  | none =>
    induction l with
    | nil => simp [lookupKey]
    | cons p ps ih =>
      by_cases hk : p.1 = k
      · rw [lookupKey, if_pos hk] at hl
        cases hl
      · rw [lookupKey, if_neg hk] at hl
        rw [List.cons_append, lookupKey, if_neg hk]
        exact ih hl

theorem mem_membersOf_append {rs : List (RoomId × List ClientId)} {k x : Nat}
    (ent : RoomId × List ClientId) (h : x ∈ membersOf rs k) :
    x ∈ membersOf (rs ++ [ent]) k := by
  rcases membersOf_mem_iff.mp h with ⟨ms, hlk, hxm⟩
  exact membersOf_mem_iff.mpr ⟨ms, lookupKey_append_left _ hlk, hxm⟩

theorem lookupKey_addStep (rs : List (RoomId × List ClientId)) (r x0 k : Nat) :
    lookupKey (rs.map (fun q => if q.1 = r then (q.1, insertId q.2 x0) else q)) k =
      if k = r then (lookupKey rs k).map (fun ms => insertId ms x0) else lookupKey rs k :=
  lookupKey_mapVal (fun ms => insertId ms x0) r rs k

theorem membersOf_addStep {rs : List (RoomId × List ClientId)} {r x0 k x : Nat}
    (h : x ∈ membersOf rs k) :
    x ∈ membersOf (rs.map (fun q => if q.1 = r then (q.1, insertId q.2 x0) else q)) k := by
  rcases membersOf_mem_iff.mp h with ⟨ms, hlk, hxm⟩
  rw [membersOf_mem_iff, lookupKey_addStep]
  by_cases hkr : k = r
  · rw [if_pos hkr, hlk]
    exact ⟨insertId ms x0, rfl, insertId_mem_of_mem x0 hxm⟩
  · rw [if_neg hkr]
    exact ⟨ms, hlk, hxm⟩

theorem hasKey_addStep {rs : List (RoomId × List ClientId)} {r : Nat} (x0 : Nat)
    (h : hasKey rs r = true) :
    hasKey (rs.map (fun q => if q.1 = r then (q.1, insertId q.2 x0) else q)) r = true := by
  unfold hasKey at *
  rw [lookupKey_addStep, if_pos rfl]
  cases hl : lookupKey rs r with
  | some v => rfl
  | none => rw [hl] at h; cases h

theorem membersOf_foldAdd_pres {r : RoomId} :
    ∀ (L : List (ClientId × ClientData)) (rs : List (RoomId × List ClientId)) (k x : Nat),
      x ∈ membersOf rs k →
      x ∈ membersOf (L.foldl (fun rs ent =>
        rs.map (fun q => if q.1 = r then (q.1, insertId q.2 ent.1) else q)) rs) k := by
  intro L
  induction L with
  | nil => intro rs k x h; exact h
  | cons a L ih =>
    intro rs k x h
    rw [List.foldl_cons]
    exact ih _ k x (membersOf_addStep h)

theorem membersOf_foldAdd_self {r : RoomId} :
    ∀ (L : List (ClientId × ClientData)) (rs : List (RoomId × List ClientId)),
      hasKey rs r = true → ∀ ent ∈ L,
      ent.1 ∈ membersOf (L.foldl (fun rs ent =>
        rs.map (fun q => if q.1 = r then (q.1, insertId q.2 ent.1) else q)) rs) r := by
  intro L
  induction L with
  | nil =>
    intro rs _ ent hent
    cases hent
  | cons a L ih =>
    intro rs hk ent hent
    rw [List.foldl_cons]
    rcases List.mem_cons.mp hent with he | hm
    · subst he
      apply membersOf_foldAdd_pres
      rcases Option.isSome_iff_exists.mp hk with ⟨ms, hms⟩
      rw [membersOf_mem_iff, lookupKey_addStep, if_pos rfl, hms]
      exact ⟨insertId ms ent.1, rfl, insertId_self_mem ms ent.1⟩
    · exact ih _ (hasKey_addStep a.1 hk) ent hm

theorem removeClientFromAllRooms_evolvesExc {w : World} {c : ClientId}
    {cd : ClientData} {full : List ClientId} {w' : World}
    (h : removeClientFromAllRooms w c cd full = .ok w') :
    w'.hub.clients = w.hub.clients ∧
    (∀ x, x ∈ w.closed → x ∈ w'.closed) ∧
    (∀ x k, x ≠ c → x ∉ w'.closed →
      x ∈ membersOf w.hub.rooms k → x ∈ membersOf w'.hub.rooms k) := by
  simp only [removeClientFromAllRooms] at h
  split at h
  · next hur =>
    cases h
    exact ⟨rfl, fun x hx => hx,
      fun x k hxc _ hm => mem_membersOf_removeFold cd.rooms _ k x hm hxc⟩
  · next rs hur =>
    split at h
    · cases h
    · next w2 hfold =>
      cases h
      have hev : evolves { w with hub := { w.hub with
          rooms := cd.rooms.foldl (fun rs r => removeMemberDel rs r c) w.hub.rooms } } w2 :=
        foldE_evolves (fun wa a wb hh => broadcastToRoom_evolves hh) rs _ w2 hfold
      obtain ⟨hcli, _, _, hmono, hmem⟩ := hev
      refine ⟨by rw [hcli], fun x hx => hmono x hx, ?_⟩
      intro x k hxc hxcl hm
      show x ∈ membersOf w2.hub.rooms k
      exact hmem x k hxcl (mem_membersOf_removeFold cd.rooms _ k x hm hxc)

theorem lookupKey_filterStep (g : ClientId → Bool) (rs : List (RoomId × List ClientId))
    (r k : Nat) :
    lookupKey (rs.map (fun q => if q.1 = r then (q.1, q.2.filter g) else q)) k =
      if k = r then (lookupKey rs k).map (fun ms => ms.filter g) else lookupKey rs k :=
  lookupKey_mapVal (fun ms => ms.filter g) r rs k

theorem keys_map_cond (upd : ClientData → ClientData) (u : UserId)
    (l : List (ClientId × ClientData)) :
    ((l.map (fun ent => if ent.2.userID = u then (ent.1, upd ent.2) else ent)).map
        Prod.fst) = l.map Prod.fst := by
  rw [List.map_map]
  apply List.map_congr_left
  intro p _
  by_cases hp : p.2.userID = u <;> simp [hp]

theorem joinClients_keys (u : UserId) (r : RoomId) (l : List (ClientId × ClientData)) :
    ((l.map (fun ent => if ent.2.userID = u then
        (ent.1, { ent.2 with rooms := insertId ent.2.rooms r }) else ent)).map
        Prod.fst) = l.map Prod.fst :=
  keys_map_cond (fun v => { v with rooms := insertId v.rooms r }) u l

theorem leaveClients_keys (u : UserId) (r : RoomId) (l : List (ClientId × ClientData)) :
    ((l.map (fun ent => if ent.2.userID = u then
        (ent.1, { ent.2 with rooms := ent.2.rooms.filter (fun x => !(x == r)) })
      else ent)).map Prod.fst) = l.map Prod.fst :=
  keys_map_cond (fun v => { v with rooms := v.rooms.filter (fun x => !(x == r)) }) u l

theorem runRegister_hubInv {w : World} {c : ClientId} {u : UserId} {name : String}
    {w' : World} (h : runRegister w c u name = .ok w') (hinv : hubInv w) : hubInv w' := by
  simp only [runRegister] at h
  split at h
  · cases h
  · cases h
    constructor
    · exact setKey_keys_nodup hinv.1
    · intro p hp hcl r hr
      rcases mem_setKey hp with he | ⟨hpm, hpc⟩
      · subst he
        simp at hr
      · exact hinv.2 p hpm hcl r hr

theorem runUnregister_hubInv {w : World} {c : ClientId} {full : List ClientId}
    {w' : World} (h : runUnregister w c full = .ok w') (hinv : hubInv w) : hubInv w' := by
  unfold runUnregister at h
  split at h
  · cases h
    exact hinv
  · next cd hc =>
    split at h
    · cases h
    · next w2 hrem =>
      simp only [] at h
      split at h
      · cases h
      · cases h
        obtain ⟨hcli, hmono, hmem⟩ := removeClientFromAllRooms_evolvesExc hrem
        constructor
        · show ((eraseKey w2.hub.clients c).map Prod.fst).Nodup
          apply eraseKey_keys_nodup
          rw [hcli]
          exact hinv.1
        · intro p hp hcl r hr
          rcases mem_eraseKey.mp hp with ⟨hpm, hpc⟩
          rw [hcli] at hpm
          have hcl2 : p.1 ∉ w2.closed := fun hx => hcl (List.mem_cons_of_mem _ hx)
          have hclw : p.1 ∉ w.closed := fun hx => hcl2 (hmono p.1 hx)
          exact hmem p.1 r hpc hcl2 (hinv.2 p hpm hclw r hr)

theorem broadcastToRoom_hubInv {w : World} {r : RoomId} {m : Msg}
    {full : List ClientId} {w' : World} (h : broadcastToRoom w r m full = .ok w')
    (hinv : hubInv w) : hubInv w' := by
  obtain ⟨hcli, hur, hev, hmono, hmem⟩ := broadcastToRoom_evolves h
  constructor
  · show (w'.hub.clients.map Prod.fst).Nodup
    rw [hcli]
    exact hinv.1
  · intro p hp hcl r2 hr2
    rw [hcli] at hp
    have hclw : p.1 ∉ w.closed := fun hx => hcl (hmono p.1 hx)
    exact hmem p.1 r2 hcl (hinv.2 p hp hclw r2 hr2)

theorem clientSendStep_hubInv {m : Msg} {full : List ClientId} {w : World}
    {ent : ClientId × ClientData} {w1 : World}
    (h : clientSendStep m full w ent = .ok w1) (hinv : hubInv w) : hubInv w1 := by
  unfold clientSendStep at h
  by_cases hc : ent.1 ∈ w.closed
  · rw [if_pos hc] at h
    cases h
  · rw [if_neg hc] at h
    by_cases hf : ent.1 ∈ full
    · rw [if_pos hf] at h
      split at h
      · cases h
      · next w2 hrem =>
        cases h
        obtain ⟨hcli, hmono, hmem⟩ := removeClientFromAllRooms_evolvesExc hrem
        constructor
        · show ((eraseKey w2.hub.clients ent.1).map Prod.fst).Nodup
          apply eraseKey_keys_nodup
          rw [hcli]
          exact hinv.1
        · intro p hp hcl r hr
          rcases mem_eraseKey.mp hp with ⟨hpm, hpc⟩
          rw [hcli] at hpm
          have hcl2 : p.1 ∉ w2.closed := fun hx => hcl (List.mem_cons_of_mem _ hx)
          have hclw : p.1 ∉ w.closed := fun hx => hcl2 (hmono p.1 hx)
          exact hmem p.1 r hpc hcl2 (hinv.2 p hpm hclw r hr)
    · rw [if_neg hf] at h
      cases h
      exact ⟨hinv.1, fun p hp hcl r hr => hinv.2 p hp hcl r hr⟩

theorem JoinRoom_hubInv {w : World} {u : UserId} {r : RoomId} (hinv : hubInv w) :
    hubInv (JoinRoom w u r) := by
  have hsup : ∀ (k x : Nat), x ∈ membersOf w.hub.rooms k →
      x ∈ membersOf (if hasKey w.hub.rooms r then w.hub.rooms
        else w.hub.rooms ++ [(r, [])]) k := by
    intro k x hx
    by_cases hk : hasKey w.hub.rooms r
    · rw [if_pos hk]
      exact hx
    · rw [if_neg hk]
      exact mem_membersOf_append _ hx
  have hkey : hasKey (if hasKey w.hub.rooms r then w.hub.rooms
      else w.hub.rooms ++ [(r, [])]) r = true := by
    by_cases hk : hasKey w.hub.rooms r
    · rw [if_pos hk]
      exact hk
    · rw [if_neg hk]
      exact hasKey_append_self _ r []
  constructor
  · show ((w.hub.clients.map (fun ent => if ent.2.userID = u then
        (ent.1, { ent.2 with rooms := insertId ent.2.rooms r }) else ent)).map
        Prod.fst).Nodup
    rw [joinClients_keys]
    exact hinv.1
  · intro p hp hcl r2 hr2
    have hp2 : p ∈ w.hub.clients.map (fun ent => if ent.2.userID = u then
        (ent.1, { ent.2 with rooms := insertId ent.2.rooms r }) else ent) := hp
    rcases List.mem_map.mp hp2 with ⟨q, hq, hfq⟩
    have hclq : p.1 ∉ w.closed := hcl
    show p.1 ∈ membersOf ((w.hub.clients.filter (fun ent => ent.2.userID == u)).foldl
      (fun rs ent => rs.map (fun q => if q.1 = r then (q.1, insertId q.2 ent.1) else q))
      (if hasKey w.hub.rooms r then w.hub.rooms else w.hub.rooms ++ [(r, [])])) r2
    by_cases hqu : q.2.userID = u
    · rw [if_pos hqu] at hfq
      subst hfq
      rcases mem_insertId hr2 with hr2m | hr2r
      · exact membersOf_foldAdd_pres _ _ r2 q.1
          (hsup r2 q.1 (hinv.2 q hq hclq r2 hr2m))
      · subst hr2r
        exact membersOf_foldAdd_self _ _ hkey q
          (List.mem_filter.mpr ⟨hq, by simp [hqu]⟩)
    · rw [if_neg hqu] at hfq
      subst hfq
      exact membersOf_foldAdd_pres _ _ r2 q.1 (hsup r2 q.1 (hinv.2 q hq hclq r2 hr2))

theorem LeaveRoom_hubInv {w : World} {u : UserId} {r : RoomId} (hinv : hubInv w) :
    hubInv (LeaveRoom w u r) := by
  unfold LeaveRoom
  by_cases hk : hasKey w.hub.rooms r
  · rw [if_pos hk]
    constructor
    · show ((w.hub.clients.map (fun ent => if ent.2.userID = u then
          (ent.1, { ent.2 with rooms := ent.2.rooms.filter (fun x => !(x == r)) })
        else ent)).map Prod.fst).Nodup
      rw [leaveClients_keys]
      exact hinv.1
    · intro p hp hcl r2 hr2
      rcases List.mem_map.mp hp with ⟨q, hq, hfq⟩
      have hmain : ∀ r3, r3 ∈ q.2.rooms → q.1 ∉ w.closed →
          q.1 ∈ membersOf ((w.hub.rooms.map (fun p => if p.1 = r then
            (p.1, p.2.filter (fun x =>
              !(((w.hub.clients.filter (fun ent => ent.2.userID == u)).map (·.1)).contains x)))
          else p)).filter (fun p => !(p.1 == r && p.2.isEmpty))) r3 ∨ r3 = r := by
        intro r3 hr3 hclq
        by_cases hr3r : r3 = r
        · exact Or.inr hr3r
        · left
          apply mem_membersOf_filterEmpty
          have hm := hinv.2 q hq hclq r3 hr3
          rcases membersOf_mem_iff.mp hm with ⟨ms, hms, hxm⟩
          rw [membersOf_mem_iff, lookupKey_filterStep, if_neg hr3r]
          exact ⟨ms, hms, hxm⟩
      by_cases hqu : q.2.userID = u
      · rw [if_pos hqu] at hfq
        subst hfq
        rcases List.mem_filter.mp hr2 with ⟨hr2m, hr2ne⟩
        have hr2r : r2 ≠ r := by simpa using hr2ne
        rcases hmain r2 hr2m hcl with hgood | hbad
        · exact hgood
        · exact absurd hbad hr2r
      · rw [if_neg hqu] at hfq
        subst hfq
        rcases hmain r2 hr2 hcl with hgood | hbad
        · exact hgood
        · subst hbad
          apply mem_membersOf_filterEmpty
          have hm := hinv.2 q hq hcl r2 hr2
          rcases membersOf_mem_iff.mp hm with ⟨ms, hms, hxm⟩
          rw [membersOf_mem_iff, lookupKey_filterStep, if_pos rfl, hms]
          refine ⟨_, rfl, List.mem_filter.mpr ⟨hxm, ?_⟩⟩
          by_cases hcq : q.1 ∈ (w.hub.clients.filter
              (fun ent => ent.2.userID == u)).map (·.1)
          · exfalso
            rcases List.mem_map.mp hcq with ⟨ent, hentf, hent1⟩
            rcases List.mem_filter.mp hentf with ⟨hentm, hentu⟩
            have hpair : (q.1, ent.2) ∈ w.hub.clients := by
              rw [← hent1]
              exact hentm
            have heq : ent.2 = q.2 := keys_nodup_unique hinv.1 hpair hq
            rw [heq] at hentu
            simp at hentu
            exact hqu hentu
          · simpa using hcq
  · rw [if_neg hk]
    exact ⟨hinv.1, fun p hp hcl r2 hr2 => hinv.2 p hp hcl r2 hr2⟩

theorem applyOp_hubInv {w : World} {op : HubOp} {w' : World}
    (h : applyOp w op = .ok w') (hinv : hubInv w) : hubInv w' := by
  cases op with
  | register c u name => exact runRegister_hubInv h hinv
  | unregister c full => exact runUnregister_hubInv h hinv
  | joinRoom u r =>
    have h2 : Except.ok (ε := GoPanic) (JoinRoom w u r) = Except.ok w' := h
    cases h2
    exact JoinRoom_hubInv hinv
  | leaveRoom u r =>
    have h2 : Except.ok (ε := GoPanic) (LeaveRoom w u r) = Except.ok w' := h
    cases h2
    exact LeaveRoom_hubInv hinv
  | broadcastRoom r t p full => exact broadcastToRoom_hubInv h hinv
  | broadcastUser u t p full =>
    have h2 : foldE (fun w1 ent => if ent.2.userID = u then
        clientSendStep ⟨t, p⟩ full w1 ent else .ok w1) w w.hub.clients = .ok w' := h
    refine foldE_inv (P := hubInv)
      (f := fun w1 ent => if ent.2.userID = u then clientSendStep ⟨t, p⟩ full w1 ent
        else .ok w1)
      ?_ w.hub.clients w w' hinv h2
    intro wa a wb hP hstep
    have hstep2 : (if a.2.userID = u then clientSendStep ⟨t, p⟩ full wa a
        else Except.ok wa) = Except.ok wb := hstep
    by_cases hau : a.2.userID = u
    · rw [if_pos hau] at hstep2
      exact clientSendStep_hubInv hstep2 hP
    · rw [if_neg hau] at hstep2
      cases hstep2
      exact hP
  | broadcastAll t p full =>
    have h2 : foldE (clientSendStep ⟨t, p⟩ full) w w.hub.clients = .ok w' := h
    exact foldE_inv (P := hubInv) (f := clientSendStep ⟨t, p⟩ full)
      (fun wa a wb hP hstep => clientSendStep_hubInv hstep hP)
      w.hub.clients w w' hinv h2

theorem runOps_hubInv (ops : List HubOp) (w : World) (h : runOps ops = .ok w) :
    hubInv w := by
  have h2 : foldE applyOp World.init ops = .ok w := h
  refine foldE_inv (P := hubInv) (f := applyOp)
    (fun wa a wb hP hstep => applyOp_hubInv hstep hP) ops World.init w ?_ h2
  exact ⟨List.nodup_nil, fun p hp => absurd hp (List.not_mem_nil p)⟩

/-- C3 (amended): after every hub operation in any non-panicking operation
sequence from the empty hub, every connection present in the client set whose
send channel is still open has a room set that is a subset of the rooms under
whose member sets it appears; the connections the slow-consumer branch of
`broadcastToRoom` drops from a room but leaves in the client set are exactly
the closed-channel ones the restriction exempts. -/
theorem C3_amended (ops : List HubOp) (w : World) (h : runOps ops = .ok w) :
    crossRefOkOpen w :=
  (runOps_hubInv ops w h).2

/-- Witness for C3's amended invariant on the concrete run whose final state
falsifies the unrestricted invariant. -/
theorem C3_amended_witness : crossRefOkOpen c3w :=
  C3_amended c3ops c3w (by rfl)

/-! ### C7: user-scoped join and leave -/

theorem lookupKey_clients_mapCond (upd : ClientData → ClientData) (u : UserId)
    (l : List (ClientId × ClientData)) (c : ClientId) :
    lookupKey (l.map (fun ent =>
        if ent.2.userID = u then (ent.1, upd ent.2) else ent)) c =
      (lookupKey l c).map (fun v => if v.userID = u then upd v else v) := by
  induction l with
  | nil => rfl
  | cons p ps ih =>
    by_cases hu : p.2.userID = u
    · simp only [List.map_cons, if_pos hu, lookupKey]
      by_cases hc : p.1 = c
      · rw [if_pos (show (p.1, upd p.2).1 = c from hc), if_pos hc]
        simp [hu]
      · rw [if_neg (show ¬ (p.1, upd p.2).1 = c from hc), if_neg hc]
        exact ih
    · simp only [List.map_cons, if_neg hu, lookupKey]
      by_cases hc : p.1 = c
      · rw [if_pos hc, if_pos hc]
        simp [hu]
      · rw [if_neg hc, if_neg hc]
        exact ih

theorem lookupKey_joinClients (u : UserId) (r : RoomId)
    (l : List (ClientId × ClientData)) (c : ClientId) :
    lookupKey (l.map (fun ent => if ent.2.userID = u then
        (ent.1, { ent.2 with rooms := insertId ent.2.rooms r }) else ent)) c =
      (lookupKey l c).map (fun v => if v.userID = u then
        { v with rooms := insertId v.rooms r } else v) :=
  lookupKey_clients_mapCond (fun v => { v with rooms := insertId v.rooms r }) u l c

theorem lookupKey_leaveClients (u : UserId) (r : RoomId)
    (l : List (ClientId × ClientData)) (c : ClientId) :
    lookupKey (l.map (fun ent => if ent.2.userID = u then
        (ent.1, { ent.2 with rooms := ent.2.rooms.filter (fun x => !(x == r)) })
      else ent)) c =
      (lookupKey l c).map (fun v => if v.userID = u then
        { v with rooms := v.rooms.filter (fun x => !(x == r)) } else v) :=
  lookupKey_clients_mapCond
    (fun v => { v with rooms := v.rooms.filter (fun x => !(x == r)) }) u l c

theorem lookupKey_of_mem_nodup {β : Type} {l : List (Nat × β)}
    (h : (l.map Prod.fst).Nodup) {p : Nat × β} (hp : p ∈ l) :
    lookupKey l p.1 = some p.2 := by
  induction l with
  | nil => cases hp
  | cons q ps ih =>
    simp only [List.map_cons, List.nodup_cons] at h
    rcases List.mem_cons.mp hp with he | hm
    · subst he
      rw [lookupKey, if_pos rfl]
    · by_cases hq : q.1 = p.1
      · exfalso
        apply h.1
        rw [hq]
        exact List.mem_map.mpr ⟨p, hm, rfl⟩
      · rw [lookupKey, if_neg hq]
        exact ih h.2 hm

theorem lookupKey_append_right_none {β : Type} {l : List (Nat × β)} {k : Nat}
    (l2 : List (Nat × β)) (h : lookupKey l k = none) :
    lookupKey (l ++ l2) k = lookupKey l2 k := by
  induction l with
  | nil => rfl
  | cons p ps ih =>
    by_cases hk : p.1 = k
    · rw [lookupKey, if_pos hk] at h
      cases h
    · rw [lookupKey, if_neg hk] at h
      rw [List.cons_append, lookupKey, if_neg hk]
      exact ih h

theorem mem_membersOf_append_rev {l : List (RoomId × List ClientId)} {r k x : Nat}
    (h : x ∈ membersOf (l ++ [(r, [])]) k) : x ∈ membersOf l k := by
  rcases membersOf_mem_iff.mp h with ⟨ms, hlk, hxm⟩
  cases hl : lookupKey l k with
  | some v =>
    rw [lookupKey_append_left _ hl] at hlk
    cases hlk
    exact membersOf_mem_iff.mpr ⟨_, hl, hxm⟩
  | none =>
    rw [lookupKey_append_right_none _ hl] at hlk
    by_cases hk : (r, ([] : List ClientId)).1 = k
    · rw [lookupKey, if_pos hk, Option.some_inj] at hlk
      subst hlk
      cases hxm
    · rw [lookupKey, if_neg hk] at hlk
      cases hlk

theorem membersOf_foldAdd_mem {r : RoomId} :
    ∀ (L : List (ClientId × ClientData)) (rs : List (RoomId × List ClientId)) (k x : Nat),
      x ∈ membersOf (L.foldl (fun rs ent =>
        rs.map (fun q => if q.1 = r then (q.1, insertId q.2 ent.1) else q)) rs) k →
      x ∈ membersOf rs k ∨ (k = r ∧ x ∈ L.map (fun e => e.1)) := by
  intro L
  induction L with
  | nil =>
    intro rs k x h
    exact Or.inl h
  | cons a L ih =>
    intro rs k x h
    rw [List.foldl_cons] at h
    rcases ih _ k x h with h1 | ⟨hk, h1⟩
    · rcases membersOf_mem_iff.mp h1 with ⟨ms, hlk, hxm⟩
      rw [lookupKey_addStep] at hlk
      by_cases hkr : k = r
      · rw [if_pos hkr] at hlk
        cases hl0 : lookupKey rs k with
        | none =>
          rw [hl0] at hlk
          cases hlk
        | some ms0 =>
          rw [hl0] at hlk
          rw [show (some ms0).map (fun ms => insertId ms a.1) =
            some (insertId ms0 a.1) from rfl, Option.some_inj] at hlk
          subst hlk
          rcases mem_insertId hxm with hx0 | hx0
          · exact Or.inl (membersOf_mem_iff.mpr ⟨ms0, hl0, hx0⟩)
          · subst hx0
            exact Or.inr ⟨hkr, List.mem_cons_self _ _⟩
      · rw [if_neg hkr] at hlk
        exact Or.inl (membersOf_mem_iff.mpr ⟨ms, hlk, hxm⟩)
    · exact Or.inr ⟨hk, List.mem_cons_of_mem _ h1⟩

theorem filterStep_keys (g : ClientId → Bool) (rs : List (RoomId × List ClientId))
    (r : RoomId) :
    ((rs.map (fun q => if q.1 = r then (q.1, q.2.filter g) else q)).map Prod.fst) =
      rs.map Prod.fst := by
  rw [List.map_map]
  apply List.map_congr_left
  intro p _
  by_cases hp : p.1 = r <;> simp [hp]

theorem mem_membersOf_filterEmpty_iff {rs : List (RoomId × List ClientId)}
    {r k x : Nat} (hnd : (rs.map Prod.fst).Nodup) :
    x ∈ membersOf (rs.filter (fun p => !(p.1 == r && p.2.isEmpty))) k ↔
      x ∈ membersOf rs k := by
  constructor
  · intro h
    rcases membersOf_mem_iff.mp h with ⟨ms, hlk, hxm⟩
    have hmem := lookupKey_mem hlk
    rcases List.mem_filter.mp hmem with ⟨hin, _⟩
    exact membersOf_mem_iff.mpr ⟨ms, lookupKey_of_mem_nodup hnd hin, hxm⟩
  · exact mem_membersOf_filterEmpty

theorem rooms0_hasKey (w : World) (r : RoomId) :
    hasKey (if hasKey w.hub.rooms r then w.hub.rooms
      else w.hub.rooms ++ [(r, [])]) r = true := by
  by_cases hk : hasKey w.hub.rooms r
  · rw [if_pos hk]
    exact hk
  · rw [if_neg hk]
    exact hasKey_append_self _ r []

theorem rooms0_sup {w : World} {r k x : Nat} (hx : x ∈ membersOf w.hub.rooms k) :
    x ∈ membersOf (if hasKey w.hub.rooms r then w.hub.rooms
      else w.hub.rooms ++ [(r, [])]) k := by
  by_cases hk : hasKey w.hub.rooms r
  · rw [if_pos hk]
    exact hx
  · rw [if_neg hk]
    exact mem_membersOf_append _ hx

theorem rooms0_down {w : World} {r k x : Nat}
    (hx : x ∈ membersOf (if hasKey w.hub.rooms r then w.hub.rooms
      else w.hub.rooms ++ [(r, [])]) k) : x ∈ membersOf w.hub.rooms k := by
  by_cases hk : hasKey w.hub.rooms r
  · rw [if_pos hk] at hx
    exact hx
  · rw [if_neg hk] at hx
    exact mem_membersOf_append_rev hx

theorem JoinRoom_adds_user_clients {w : World} {u : UserId} {r : RoomId}
    {c : ClientId} {cd : ClientData}
    (hc : lookupKey w.hub.clients c = some cd) (hcu : cd.userID = u) :
    c ∈ membersOf (JoinRoom w u r).hub.rooms r ∧
    lookupKey (JoinRoom w u r).hub.clients c =
      some ⟨cd.userID, cd.username, insertId cd.rooms r⟩ := by
  constructor
  · show c ∈ membersOf ((w.hub.clients.filter (fun ent => ent.2.userID == u)).foldl
      (fun rs ent => rs.map (fun q => if q.1 = r then (q.1, insertId q.2 ent.1) else q))
      (if hasKey w.hub.rooms r then w.hub.rooms else w.hub.rooms ++ [(r, [])])) r
    exact membersOf_foldAdd_self _ _ (rooms0_hasKey w r) (c, cd)
      (List.mem_filter.mpr ⟨lookupKey_mem hc, by simp [hcu]⟩)
  · show lookupKey (w.hub.clients.map (fun ent => if ent.2.userID = u then
      (ent.1, { ent.2 with rooms := insertId ent.2.rooms r }) else ent)) c = _
    rw [lookupKey_joinClients, hc]
    simp [hcu]

theorem JoinRoom_other_unaffected {w : World} {u : UserId} {r : RoomId}
    {c : ClientId} {cd : ClientData}
    (hkeys : (w.hub.clients.map Prod.fst).Nodup)
    (hc : lookupKey w.hub.clients c = some cd) (hcu : cd.userID ≠ u) :
    lookupKey (JoinRoom w u r).hub.clients c = some cd ∧
    (c ∈ membersOf (JoinRoom w u r).hub.rooms r ↔ c ∈ membersOf w.hub.rooms r) := by
  constructor
  · show lookupKey (w.hub.clients.map (fun ent => if ent.2.userID = u then
      (ent.1, { ent.2 with rooms := insertId ent.2.rooms r }) else ent)) c = _
    rw [lookupKey_joinClients, hc]
    simp [hcu]
  · constructor
    · intro hmem
      have hm2 : c ∈ membersOf ((w.hub.clients.filter
          (fun ent => ent.2.userID == u)).foldl
        (fun rs ent => rs.map (fun q => if q.1 = r then (q.1, insertId q.2 ent.1) else q))
        (if hasKey w.hub.rooms r then w.hub.rooms else w.hub.rooms ++ [(r, [])])) r := hmem
      rcases membersOf_foldAdd_mem _ _ r c hm2 with h1 | ⟨_, h1⟩
      · exact rooms0_down h1
      · exfalso
        rcases List.mem_map.mp h1 with ⟨ent, hentf, hent1⟩
        rcases List.mem_filter.mp hentf with ⟨hentm, hentu⟩
        have hlk2 : lookupKey w.hub.clients ent.1 = some ent.2 :=
          lookupKey_of_mem_nodup hkeys hentm
        rw [hent1, hc, Option.some_inj] at hlk2
        rw [← hlk2] at hentu
        simp at hentu
        exact hcu hentu
    · intro hmem
      show c ∈ membersOf ((w.hub.clients.filter (fun ent => ent.2.userID == u)).foldl
        (fun rs ent => rs.map (fun q => if q.1 = r then (q.1, insertId q.2 ent.1) else q))
        (if hasKey w.hub.rooms r then w.hub.rooms else w.hub.rooms ++ [(r, [])])) r
      exact membersOf_foldAdd_pres _ _ r c (rooms0_sup hmem)

theorem JoinRoom_members_from {w : World} {u : UserId} {r : RoomId} {c : ClientId}
    (hkeys : (w.hub.clients.map Prod.fst).Nodup)
    (hmem : c ∈ membersOf (JoinRoom w u r).hub.rooms r) :
    c ∈ membersOf w.hub.rooms r ∨
      ∃ cd, lookupKey w.hub.clients c = some cd ∧ cd.userID = u := by
  have hm2 : c ∈ membersOf ((w.hub.clients.filter (fun ent => ent.2.userID == u)).foldl
    (fun rs ent => rs.map (fun q => if q.1 = r then (q.1, insertId q.2 ent.1) else q))
    (if hasKey w.hub.rooms r then w.hub.rooms else w.hub.rooms ++ [(r, [])])) r := hmem
  rcases membersOf_foldAdd_mem _ _ r c hm2 with h1 | ⟨_, h1⟩
  · exact Or.inl (rooms0_down h1)
  · right
    rcases List.mem_map.mp h1 with ⟨ent, hentf, hent1⟩
    rcases List.mem_filter.mp hentf with ⟨hentm, hentu⟩
    have hlk2 : lookupKey w.hub.clients ent.1 = some ent.2 :=
      lookupKey_of_mem_nodup hkeys hentm
    rw [hent1] at hlk2
    exact ⟨ent.2, hlk2, by simpa using hentu⟩

theorem LeaveRoom_removes_user_clients {w : World} {u : UserId} {r : RoomId}
    {c : ClientId} {cd : ClientData}
    (hrkeys : (w.hub.rooms.map Prod.fst).Nodup)
    (hc : lookupKey w.hub.clients c = some cd) (hcu : cd.userID = u)
    (hmiss : hasKey w.hub.rooms r = false → r ∉ cd.rooms) :
    c ∉ membersOf (LeaveRoom w u r).hub.rooms r ∧
    lookupKey (LeaveRoom w u r).hub.clients c =
      some ⟨cd.userID, cd.username, cd.rooms.filter (fun x => !(x == r))⟩ := by
  unfold LeaveRoom
  by_cases hk : hasKey w.hub.rooms r = true
  · rw [if_pos hk]
    constructor
    · intro hmem
      have hnd1 : (((w.hub.rooms.map (fun p => if p.1 = r then
          (p.1, p.2.filter (fun x => !(((w.hub.clients.filter
            (fun ent => ent.2.userID == u)).map (fun x => x.1)).contains x)))
          else p)).map Prod.fst)).Nodup := by
        rw [filterStep_keys]
        exact hrkeys
      have hm2 := (mem_membersOf_filterEmpty_iff (r := r) (k := r) (x := c) hnd1).mp hmem
      rcases membersOf_mem_iff.mp hm2 with ⟨ms, hlk, hxm⟩
      rw [lookupKey_filterStep, if_pos rfl] at hlk
      cases hl0 : lookupKey w.hub.rooms r with
      | none =>
        rw [hl0] at hlk
        cases hlk
      | some ms0 =>
        rw [hl0] at hlk
        rw [show (some ms0).map (fun ms => ms.filter (fun x =>
          !(((w.hub.clients.filter (fun ent => ent.2.userID == u)).map
            (fun x => x.1)).contains x))) = some (ms0.filter _) from rfl,
          Option.some_inj] at hlk
        subst hlk
        rcases List.mem_filter.mp hxm with ⟨_, hg⟩
        have hcin : ((w.hub.clients.filter (fun ent => ent.2.userID == u)).map
            (fun x => x.1)).contains c = true :=
          List.elem_eq_true_of_mem (List.mem_map.mpr
            ⟨(c, cd), List.mem_filter.mpr ⟨lookupKey_mem hc, by simp [hcu]⟩, rfl⟩)
        rw [hcin] at hg
        exact Bool.noConfusion hg
    · show lookupKey (w.hub.clients.map (fun ent => if ent.2.userID = u then
        (ent.1, { ent.2 with rooms := ent.2.rooms.filter (fun x => !(x == r)) })
        else ent)) c = _
      rw [lookupKey_leaveClients, hc]
      simp [hcu]
  · rw [if_neg hk]
    have hfalse : hasKey w.hub.rooms r = false := by
      cases hval : hasKey w.hub.rooms r
      · rfl
      · exact absurd hval hk
    have hrn : r ∉ cd.rooms := hmiss hfalse
    constructor
    · intro hmem
      rcases membersOf_mem_iff.mp hmem with ⟨ms, hlk, _⟩
      unfold hasKey at hfalse
      rw [show lookupKey w.hub.rooms r = some ms from hlk] at hfalse
      cases hfalse
    · show lookupKey w.hub.clients c = _
      rw [hc]
      have hfilt : cd.rooms.filter (fun x => !(x == r)) = cd.rooms := by
        apply List.filter_eq_self.mpr
        intro a ha
        simp
        exact fun he => hrn (he ▸ ha)
      rw [hfilt]

theorem LeaveRoom_other_unaffected {w : World} {u : UserId} {r : RoomId}
    {c : ClientId} {cd : ClientData}
    (hkeys : (w.hub.clients.map Prod.fst).Nodup)
    (hrkeys : (w.hub.rooms.map Prod.fst).Nodup)
    (hc : lookupKey w.hub.clients c = some cd) (hcu : cd.userID ≠ u) :
    lookupKey (LeaveRoom w u r).hub.clients c = some cd ∧
    (c ∈ membersOf (LeaveRoom w u r).hub.rooms r ↔ c ∈ membersOf w.hub.rooms r) := by
  have hnotin : ((w.hub.clients.filter (fun ent => ent.2.userID == u)).map
      (fun x => x.1)).contains c = false := by
    by_cases hcq : c ∈ (w.hub.clients.filter (fun ent => ent.2.userID == u)).map
        (fun x => x.1)
    · exfalso
      rcases List.mem_map.mp hcq with ⟨ent, hentf, hent1⟩
      rcases List.mem_filter.mp hentf with ⟨hentm, hentu⟩
      have hlk2 : lookupKey w.hub.clients ent.1 = some ent.2 :=
        lookupKey_of_mem_nodup hkeys hentm
      rw [hent1, hc, Option.some_inj] at hlk2
      rw [← hlk2] at hentu
      simp at hentu
      exact hcu hentu
    · simpa using hcq
  unfold LeaveRoom
  by_cases hk : hasKey w.hub.rooms r = true
  · rw [if_pos hk]
    constructor
    · show lookupKey (w.hub.clients.map (fun ent => if ent.2.userID = u then
        (ent.1, { ent.2 with rooms := ent.2.rooms.filter (fun x => !(x == r)) })
        else ent)) c = _
      rw [lookupKey_leaveClients, hc]
      simp [hcu]
    · have hnd1 : (((w.hub.rooms.map (fun p => if p.1 = r then
          (p.1, p.2.filter (fun x => !(((w.hub.clients.filter
            (fun ent => ent.2.userID == u)).map (fun x => x.1)).contains x)))
          else p)).map Prod.fst)).Nodup := by
        rw [filterStep_keys]
        exact hrkeys
      constructor
      · intro hmem
        have hm2 := (mem_membersOf_filterEmpty_iff (r := r) (k := r) (x := c) hnd1).mp hmem
        rcases membersOf_mem_iff.mp hm2 with ⟨ms, hlk, hxm⟩
        rw [lookupKey_filterStep, if_pos rfl] at hlk
        cases hl0 : lookupKey w.hub.rooms r with
        | none =>
          rw [hl0] at hlk
          cases hlk
        | some ms0 =>
          rw [hl0] at hlk
          rw [show (some ms0).map (fun ms => ms.filter (fun x =>
            !(((w.hub.clients.filter (fun ent => ent.2.userID == u)).map
              (fun x => x.1)).contains x))) = some (ms0.filter _) from rfl,
            Option.some_inj] at hlk
          subst hlk
          exact membersOf_mem_iff.mpr ⟨ms0, hl0, (List.mem_filter.mp hxm).1⟩
      · intro hmem
        apply (mem_membersOf_filterEmpty_iff (r := r) (k := r) (x := c) hnd1).mpr
        rcases membersOf_mem_iff.mp hmem with ⟨ms, hlk, hxm⟩
        rw [membersOf_mem_iff, lookupKey_filterStep, if_pos rfl, hlk]
        refine ⟨_, rfl, List.mem_filter.mpr ⟨hxm, ?_⟩⟩
        rw [hnotin]
        rfl
  · rw [if_neg hk]
    exact ⟨by show lookupKey w.hub.clients c = _; exact hc, Iff.rfl⟩

/-- C7: `JoinRoom(u, r)` adds every live connection owned by `u` — and only
connections owned by `u` — to room r's member set and adds r to each such
connection's room set; `LeaveRoom(u, r)` removes every live connection of `u`
from r's member set and r from each such connection's room set; connections of
other users keep their data and their membership in r unchanged.  The
well-formedness hypotheses (unique table keys; a room absent from the index is
in no open client's room set) hold in every reachable state. -/
theorem C7_join_leave (w : World) (u : UserId) (r : RoomId)
    (hkeys : (w.hub.clients.map Prod.fst).Nodup)
    (hrkeys : (w.hub.rooms.map Prod.fst).Nodup)
    (hmiss : hasKey w.hub.rooms r = false →
      ∀ c cd, lookupKey w.hub.clients c = some cd → cd.userID = u → r ∉ cd.rooms) :
    (∀ c cd, lookupKey w.hub.clients c = some cd → cd.userID = u →
       c ∈ membersOf (JoinRoom w u r).hub.rooms r ∧
       lookupKey (JoinRoom w u r).hub.clients c =
         some ⟨cd.userID, cd.username, insertId cd.rooms r⟩ ∧
       r ∈ insertId cd.rooms r ∧
       c ∉ membersOf (LeaveRoom w u r).hub.rooms r ∧
       lookupKey (LeaveRoom w u r).hub.clients c =
         some ⟨cd.userID, cd.username, cd.rooms.filter (fun x => !(x == r))⟩ ∧
       r ∉ cd.rooms.filter (fun x => !(x == r))) ∧
    (∀ c cd, lookupKey w.hub.clients c = some cd → cd.userID ≠ u →
       lookupKey (JoinRoom w u r).hub.clients c = some cd ∧
       lookupKey (LeaveRoom w u r).hub.clients c = some cd ∧
       (c ∈ membersOf (JoinRoom w u r).hub.rooms r ↔ c ∈ membersOf w.hub.rooms r) ∧
       (c ∈ membersOf (LeaveRoom w u r).hub.rooms r ↔ c ∈ membersOf w.hub.rooms r)) ∧
    (∀ c, c ∈ membersOf (JoinRoom w u r).hub.rooms r →
       c ∈ membersOf w.hub.rooms r ∨
       ∃ cd, lookupKey w.hub.clients c = some cd ∧ cd.userID = u) := by
  refine ⟨?_, ?_, ?_⟩
  · intro c cd hc hcu
    obtain ⟨hj1, hj2⟩ := JoinRoom_adds_user_clients (r := r) hc hcu
    obtain ⟨hl1, hl2⟩ := LeaveRoom_removes_user_clients hrkeys hc hcu
      (fun hf => hmiss hf c cd hc hcu)
    refine ⟨hj1, hj2, insertId_self_mem cd.rooms r, hl1, hl2, ?_⟩
    intro hr
    rcases List.mem_filter.mp hr with ⟨_, hne⟩
    simp at hne
  · intro c cd hc hcu
    obtain ⟨hj1, hj2⟩ := JoinRoom_other_unaffected (r := r) hkeys hc hcu
    obtain ⟨hl1, hl2⟩ := LeaveRoom_other_unaffected (r := r) hkeys hrkeys hc hcu
    exact ⟨hj1, hl1, hj2, hl2⟩
  · intro c hmem
    exact JoinRoom_members_from hkeys hmem

/-- Witness for C7 at the concrete state with clients 1 (user 10, in room 100)
and 2 (user 20, not in the room). -/
theorem C7_join_leave_witness :
    1 ∈ membersOf (JoinRoom c10w 10 100).hub.rooms 100 ∧
    2 ∉ membersOf (LeaveRoom c10w 10 100).hub.rooms 100 ∧
    lookupKey (LeaveRoom c10w 10 100).hub.clients 2 = some ⟨20, "u2", []⟩ := by
  obtain ⟨hu, hother, _⟩ := C7_join_leave c10w 10 100 (by decide) (by decide)
    (fun hf => by
      rw [show hasKey c10w.hub.rooms 100 = true from rfl] at hf
      cases hf)
  obtain ⟨hj1, _, _, _, _, _⟩ := hu 1 ⟨10, "u1", [100]⟩ rfl rfl
  obtain ⟨_, hl1, _, hl2⟩ := hother 2 ⟨20, "u2", []⟩ rfl (by decide)
  refine ⟨hj1, ?_, hl1⟩
  intro hmem
  have := hl2.mp hmem
  revert this
  decide
